import Mathlib

/-!
# Typed codec and transaction wrappers of the ring buffer binding

A shallow embedding of `src/ringbuf/wrappers.c`.

Modelling conventions:

* The mapped data area `rb->rbf->data` is a byte-addressed memory `Mem`; address `0`
  is the first byte of the data area.  The host is little-endian.
* A C `assert` that fails aborts the call: it is the error `Exn.Assert_failure`.
* An OCaml `int` is a mathematical integer (`Long_val` is then the identity); C
  conversions to narrower or unsigned types are explicit (`to_size_t`, `to_int`,
  `to_unsigned`), as is the tagging `Val_long`.
* The functions of the core library (`ringbuf.h`) that the wrappers call are taken
  as parameters, the ring they act on being a value of an arbitrary type `ρ`.
-/

namespace Ringbuf

/-! ## Machine integers and bytes -/

/-- One byte of memory. -/
abbrev Byte := Fin 256

/-- The low eight bits of a natural number, as a byte. -/
def toByte (n : Nat) : Byte := ⟨n % 256, Nat.mod_lt n (by decide)⟩

/-- Conversion of a C integer to `size_t` (64 bits, modular). -/
def to_size_t (n : Int) : Nat := (n % 2 ^ 64).toNat

/-- Conversion of a C integer to `unsigned` / `uint32_t` (32 bits, modular). -/
def to_unsigned (n : Int) : Nat := (n % 2 ^ 32).toNat

/-- Conversion of a C integer to `int` (32 bits, two's complement). -/
def to_int (n : Int) : Int := (n + 2 ^ 31) % 2 ^ 32 - 2 ^ 31

/-- The macro `Val_long`: tagging a C `long` as an OCaml `int` keeps its low 63 bits,
read as a signed number. -/
def Val_long (n : Int) : Int := (n + 2 ^ 62) % 2 ^ 63 - 2 ^ 62

/-- The `n` little-endian bytes of the object representation of `v`. -/
def le_bytes : Nat → Nat → List Byte
  | 0, _ => []
  | n + 1, v => toByte v :: le_bytes n (v / 256)

/-- The unsigned integer whose little-endian object representation is `bs`. -/
def le_val : List Byte → Nat
  | [] => 0
  | b :: bs => b.val + 256 * le_val bs

/-- The signed (two's complement) integer whose little-endian object representation
is `bs`. -/
def le_sval (bs : List Byte) : Int :=
  if le_val bs < 2 ^ (8 * bs.length - 1) then (le_val bs : Int)
  else (le_val bs : Int) - 2 ^ (8 * bs.length)

/-! ## Exceptions and memory -/

/-- The ways a call of the binding ends abnormally. -/
inductive Exn
  | Assert_failure
  | Invalid_argument
  | Failure
  | NoMoreRoom
  | Empty
  | End_of_file
  deriving DecidableEq, Repr

/-- The bytes of the data area `rb->rbf->data`, by byte address. -/
abbrev Mem := Nat → Byte

/-- The call `memcpy(addr, src, size)` where `addr` points into the data area. The
bytes copied are those of `src` when `size` is at most its length; past the end of
`src` the C code copies whatever follows the source in memory, which is not part of
the model and is taken as 0. -/
def memcpy_to (mem : Mem) (addr : Nat) (src : List Byte) (size : Nat) : Mem :=
  fun a => if addr ≤ a ∧ a < addr + size then src.getD (a - addr) 0 else mem a

/-- The bytes that `memcpy(dst, addr, size)` copies out of the data area. -/
def memcpy_from (mem : Mem) (addr size : Nat) : List Byte :=
  (List.range size).map (fun i => mem (addr + i))

/-- The call `memset(addr, 0, size)`. -/
def memset_zero (mem : Mem) (addr size : Nat) : Mem :=
  fun a => if addr ≤ a ∧ a < addr + size then 0 else mem a

/-! ## Transactions -/

/-- The constant `MAX_RINGBUF_MSG_SIZE`. -/
def MAX_RINGBUF_MSG_SIZE : Nat := 8096

/-- The part of the core `struct ringbuf_tx` that the wrappers use: the word index,
in the data area, of the first word of the record. -/
structure ringbuf_tx where
  record_start : Nat
  deriving DecidableEq, Repr

/-- The `struct wrap_ringbuf_tx`: a core transaction and the number of bytes
allocated (a `size_t`). The pointer to the ring is left out: the ring is passed
explicitly. -/
structure wrap_ringbuf_tx where
  tx : ringbuf_tx
  alloced : Nat
  deriving DecidableEq, Repr

/-- The function `where_to`, as a byte address: `data + record_start + offs/4` is
pointer arithmetic on 32-bit words. The address is not reduced modulo `2 ^ 64`: it
is the address the C code computes for every offset from 0 up to `2 ^ 62`, the
range of the non-negative OCaml integers; for the `size_t` of a negative offset the
C pointer wraps around and points before the slot. -/
def where_to (wrtx : wrap_ringbuf_tx) (offs : Nat) : Nat :=
  4 * (wrtx.tx.record_start + offs / 4)

/-- The function `write_words`; `offs` and `size` are `size_t`. -/
def write_words (wrtx : wrap_ringbuf_tx) (mem : Mem) (offs : Nat) (src : List Byte)
    (size : Nat) : Except Exn Mem :=
  if offs &&& 3 ≠ 0 then .error .Assert_failure
  else if ¬ ((size + offs) % 2 ^ 64 ≤ wrtx.alloced) then .error .Assert_failure
  else if ¬ (size ≤ MAX_RINGBUF_MSG_SIZE) then .error .Assert_failure
  else .ok (memcpy_to mem (where_to wrtx offs) src size)

/-- The function `read_words`, returning the bytes copied to `dst`. -/
def read_words (wrtx : wrap_ringbuf_tx) (mem : Mem) (offs : Nat) (size : Nat) :
    Except Exn (List Byte) :=
  if offs &&& 3 ≠ 0 then .error .Assert_failure
  else if ¬ ((size + offs) % 2 ^ 64 ≤ wrtx.alloced) then .error .Assert_failure
  else if ¬ (size ≤ MAX_RINGBUF_MSG_SIZE) then .error .Assert_failure
  else .ok (memcpy_from mem (where_to wrtx offs) size)

/-! ## Values of the host runtime -/

/-- The `struct custom_operations` tables named by the reads. -/
inductive custom_operations
  | uint128_ops
  | uint64_ops
  | uint32_ops
  | int128_ops
  | caml_int64_ops
  | caml_int32_ops
  deriving DecidableEq, Repr

/-- A custom block of the host runtime: its operations table and the bytes that
`Data_custom_val` points to. -/
structure custom where
  ops : custom_operations
  data : List Byte
  deriving DecidableEq, Repr

/-- A block with a tag and one field holding a custom block, as `write_ip` receives
and `read_ip` allocates. -/
structure ip_block where
  tag : Nat
  field0 : custom
  deriving DecidableEq, Repr

/-! ## Typed writes -/

/-- The macro `WRITE_BOXED(bits)`: copies the first `bits / 8` bytes of the data of
a custom block. -/
def write_boxed (bits : Nat) (wrtx : wrap_ringbuf_tx) (mem : Mem) (off_ : Int)
    (v_ : custom) : Except Exn Mem :=
  write_words wrtx mem (to_size_t off_) v_.data (bits / 8)

/-- The macro `WRITE_UNBOXED_INT(bits)`: converts the OCaml `int` to `uintN_t` and
copies its `bits / 8` bytes. -/
def write_unboxed (bits : Nat) (wrtx : wrap_ringbuf_tx) (mem : Mem) (off_ : Int)
    (v_ : Int) : Except Exn Mem :=
  write_words wrtx mem (to_size_t off_)
    (le_bytes (bits / 8) (v_ % 2 ^ bits).toNat) (bits / 8)

/-- The instance `WRITE_BOXED(128)`. -/
def write_boxed_128 := write_boxed 128

/-- The instance `WRITE_BOXED(64)`. -/
def write_boxed_64 := write_boxed 64

/-- The instance `WRITE_BOXED(48)`. -/
def write_boxed_48 := write_boxed 48

/-- The instance `WRITE_BOXED(32)`. -/
def write_boxed_32 := write_boxed 32

/-- The instance `WRITE_UNBOXED_INT(16)`. -/
def write_unboxed_16 := write_unboxed 16

/-- The instance `WRITE_UNBOXED_INT(8)`. -/
def write_unboxed_8 := write_unboxed 8

/-- The function `write_ip`: the tag word, then the address at `offs + 4`, the
offset being passed on through `Val_long`. -/
def write_ip (wrtx : wrap_ringbuf_tx) (mem : Mem) (off_ : Int) (v_ : ip_block) :
    Except Exn Mem :=
  let offs := to_size_t off_
  let tag := v_.tag % 2 ^ 32
  if ¬ (tag = 0 ∨ tag = 1) then .error .Assert_failure
  else
    match write_words wrtx mem offs (le_bytes 4 tag) 4 with
    | .error e => .error e
    | .ok mem1 =>
      if tag = 0 then
        write_boxed_32 wrtx mem1 (Val_long (((offs + 4) % 2 ^ 64 : Nat) : Int)) v_.field0
      else
        write_boxed_128 wrtx mem1 (Val_long (((offs + 4) % 2 ^ 64 : Nat) : Int)) v_.field0

/-- The function `write_str`: the length as a `uint32_t`, then the bytes. -/
def write_str (wrtx : wrap_ringbuf_tx) (mem : Mem) (off_ : Int) (v_ : List Byte) :
    Except Exn Mem :=
  let offs := to_size_t off_
  let size := v_.length % 2 ^ 32
  match write_words wrtx mem offs (le_bytes 4 size) 4 with
  | .error e => .error e
  | .ok mem1 => write_words wrtx mem1 ((offs + 4) % 2 ^ 64) v_ size

/-- The constant `UINT32_MAX`. -/
def UINT32_MAX : Int := 4294967295

/-- The function `write_word`. -/
def write_word (wrtx : wrap_ringbuf_tx) (mem : Mem) (off_ : Int) (v_ : Int) :
    Except Exn Mem :=
  let offs := to_size_t off_
  if offs &&& 3 ≠ 0 then .error .Assert_failure
  else if ¬ (v_ ≤ UINT32_MAX) then .error .Assert_failure
  else .ok (memcpy_to mem (where_to wrtx offs) (le_bytes 4 (to_unsigned v_)) 4)

/-- The function `write_float`; `v_` is the object representation of the double. -/
def write_float (wrtx : wrap_ringbuf_tx) (mem : Mem) (off_ : Int) (v_ : List Byte) :
    Except Exn Mem :=
  write_words wrtx mem (to_size_t off_) v_ 8

/-- The function `zero_bytes`; the `int` size is converted to `size_t` by `memset`. -/
def zero_bytes (wrtx : wrap_ringbuf_tx) (mem : Mem) (off_ : Int) (size_ : Int) :
    Except Exn Mem :=
  let offs := to_size_t off_
  if offs &&& 3 ≠ 0 then .error .Assert_failure
  else .ok (memset_zero mem (where_to wrtx offs) (to_size_t (to_int size_)))

/-- The function `set_bit`. -/
def set_bit (wrtx : wrap_ringbuf_tx) (mem : Mem) (bit_ : Int) : Except Exn Mem :=
  let bit := to_unsigned bit_
  if ¬ (bit / 8 < wrtx.alloced) then .error .Assert_failure
  else
    let addr := where_to wrtx 0 + bit / 8
    let mask := (1 <<< (bit % 8)) % 256
    .ok (Function.update mem addr (toByte ((mem addr).val ||| mask)))

/-! ## Typed reads -/

/-- The macro `READ_BOXED(int_type, bits, ops)`: a fresh custom block with the given
operations and `bits / 8` bytes of data read from the slot. -/
def read_boxed (bits : Nat) (ops : custom_operations) (wrtx : wrap_ringbuf_tx)
    (mem : Mem) (off_ : Int) : Except Exn custom :=
  match read_words wrtx mem (to_size_t off_) (bits / 8) with
  | .error e => .error e
  | .ok dst => .ok ⟨ops, dst⟩

/-- The macro `READ_UNBOXED_INT(int_type, bits)`: the bytes read are those of an
`intN_t` (`signed`) or `uintN_t`, returned through `Val_long`. -/
def read_unboxed (signed : Bool) (bits : Nat) (wrtx : wrap_ringbuf_tx) (mem : Mem)
    (off_ : Int) : Except Exn Int :=
  match read_words wrtx mem (to_size_t off_) (bits / 8) with
  | .error e => .error e
  | .ok dst => .ok (Val_long (if signed then le_sval dst else (le_val dst : Int)))

/-- The instance `READ_BOXED(uint, 128, uint128_ops)`. -/
def read_uint128 := read_boxed 128 .uint128_ops

/-- The instance `READ_BOXED(uint, 64, uint64_ops)`. -/
def read_uint64 := read_boxed 64 .uint64_ops

/-- The instance `READ_BOXED(uint, 48, uint32_ops)`. -/
def read_uint48 := read_boxed 48 .uint32_ops

/-- The instance `READ_BOXED(uint, 32, uint32_ops)`. -/
def read_uint32 := read_boxed 32 .uint32_ops

/-- The instance `READ_UNBOXED_INT(uint, 16)`. -/
def read_uint16 := read_unboxed false 16

/-- The instance `READ_UNBOXED_INT(uint, 8)`. -/
def read_uint8 := read_unboxed false 8

/-- The instance `READ_BOXED(int, 128, int128_ops)`. -/
def read_int128 := read_boxed 128 .int128_ops

/-- The instance `READ_BOXED(int, 64, caml_int64_ops)`. -/
def read_int64 := read_boxed 64 .caml_int64_ops

/-- The instance `READ_BOXED(int, 32, caml_int32_ops)`. -/
def read_int32 := read_boxed 32 .caml_int32_ops

/-- The instance `READ_UNBOXED_INT(int, 16)`. -/
def read_int16 := read_unboxed true 16

/-- The instance `READ_UNBOXED_INT(int, 8)`. -/
def read_int8 := read_unboxed true 8

/-- The function `read_ip`. -/
def read_ip (wrtx : wrap_ringbuf_tx) (mem : Mem) (off_ : Int) : Except Exn ip_block :=
  let offs := to_size_t off_
  match read_words wrtx mem offs 4 with
  | .error e => .error e
  | .ok dst =>
    let tag := le_val dst
    if tag = 0 then
      match read_uint32 wrtx mem (Val_long (((offs + 4) % 2 ^ 64 : Nat) : Int)) with
      | .error e => .error e
      | .ok a => .ok ⟨tag, a⟩
    else if ¬ (tag = 1) then .error .Assert_failure
    else
      match read_uint128 wrtx mem (Val_long (((offs + 4) % 2 ^ 64 : Nat) : Int)) with
      | .error e => .error e
      | .ok a => .ok ⟨tag, a⟩

/-- The function `read_float`, returning the object representation of the double. -/
def read_float (wrtx : wrap_ringbuf_tx) (mem : Mem) (off_ : Int) :
    Except Exn (List Byte) :=
  read_words wrtx mem (to_size_t off_) 8

/-- The function `get_bit`. -/
def get_bit (wrtx : wrap_ringbuf_tx) (mem : Mem) (bit_ : Int) : Except Exn Bool :=
  let bit := to_unsigned bit_
  if ¬ (bit / 8 < wrtx.alloced) then .error .Assert_failure
  else
    let addr := where_to wrtx 0 + bit / 8
    let mask := (1 <<< (bit % 8)) % 256
    .ok (decide ((mem addr).val &&& mask ≠ 0))

/-- The function `read_word`. -/
def read_word (wrtx : wrap_ringbuf_tx) (mem : Mem) (off_ : Int) : Except Exn Int :=
  match read_words wrtx mem (to_size_t off_) 4 with
  | .error e => .error e
  | .ok dst => .ok (Val_long (le_val dst : Int))

/-- The function `read_str`: the length word, then that many bytes. -/
def read_str (wrtx : wrap_ringbuf_tx) (mem : Mem) (off_ : Int) :
    Except Exn (List Byte) :=
  let offs := to_size_t off_
  match read_words wrtx mem offs 4 with
  | .error e => .error e
  | .ok dst => read_words wrtx mem ((offs + 4) % 2 ^ 64) (le_val dst)

/-! ## Wrappers of the core operations -/

/-- The values of `enum ringbuf_error` that the wrappers distinguish. -/
inductive ringbuf_error
  | RB_OK
  | RB_ERR_NO_MORE_ROOM
  | RB_ERR_FAILURE
  deriving DecidableEq, Repr

/-- The function `check_size`; `size` is a C `int`, and `size & 3` is taken on its
two's complement bit pattern. -/
def check_size (size : Int) : Except Exn Unit :=
  if to_unsigned size &&& 3 ≠ 0 then .error .Invalid_argument
  else if size > (MAX_RINGBUF_MSG_SIZE : Int) then .error .Invalid_argument
  else .ok ()

/-- The expression `size / sizeof(uint32_t)` assigned to a `uint32_t`: the `int` is
converted to `size_t` for the division and the quotient is truncated to 32 bits. -/
def nb_words_of_size (size : Int) : Nat := (to_size_t size / 4) % 2 ^ 32

/-- The function `wrap_ringbuf_enqueue`, over the core `ringbuf_enqueue`. The result
is what the call returns or raises, and the ring afterwards. -/
def wrap_ringbuf_enqueue {ρ F : Type}
    (ringbuf_enqueue : ρ → List Byte → Nat → F → F → ringbuf_error × ρ)
    (rb : ρ) (bytes_ : List Byte) (size_ : Int) (tmin_ tmax_ : F) :
    Except Exn Unit × ρ :=
  let size := to_int size_
  match check_size size with
  | .error e => (.error e, rb)
  | .ok _ =>
    if size < to_int (bytes_.length : Int) then (.error .Invalid_argument, rb)
    else
      match ringbuf_enqueue rb bytes_ (nb_words_of_size size) tmin_ tmax_ with
      | (.RB_ERR_NO_MORE_ROOM, rb1) => (.error .NoMoreRoom, rb1)
      | (.RB_ERR_FAILURE, rb1) => (.error .Failure, rb1)
      | (.RB_OK, rb1) => (.ok (), rb1)

/-- The function `wrap_ringbuf_read_first`, over the core `ringbuf_read_first`. -/
def wrap_ringbuf_read_first {ρ : Type}
    (ringbuf_read_first : ρ → Int × ringbuf_tx × ρ) (rb : ρ) :
    Except Exn wrap_ringbuf_tx × ρ :=
  match ringbuf_read_first rb with
  | (size, tx, rb1) =>
    if size = -2 then (.error .Failure, rb1)
    else if size = -1 then (.error .Empty, rb1)
    else (.ok ⟨tx, to_size_t size⟩, rb1)

/-- The function `wrap_ringbuf_read_next`, over the core `ringbuf_read_next`. The
core advances the cursor held in the transaction in place: the second component of
the result is the transaction object after the call, whatever the outcome. -/
def wrap_ringbuf_read_next {ρ : Type}
    (ringbuf_read_next : ρ → ringbuf_tx → Int × ringbuf_tx × ρ)
    (rb : ρ) (wrtx : wrap_ringbuf_tx) :
    Except Exn wrap_ringbuf_tx × wrap_ringbuf_tx × ρ :=
  match ringbuf_read_next rb wrtx.tx with
  | (size, tx, rb1) =>
    if size = 0 then (.error .End_of_file, ⟨tx, wrtx.alloced⟩, rb1)
    else if size = -1 then (.error .Empty, ⟨tx, wrtx.alloced⟩, rb1)
    else (.ok ⟨tx, to_size_t size⟩, ⟨tx, to_size_t size⟩, rb1)

/-- The function `wrap_empty_tx`: a zeroed transaction. -/
def wrap_empty_tx : wrap_ringbuf_tx := ⟨⟨0⟩, 0⟩

/-- The function `wrap_ringbuf_enqueue_alloc`, over the core
`ringbuf_enqueue_alloc`. -/
def wrap_ringbuf_enqueue_alloc {ρ : Type}
    (ringbuf_enqueue_alloc : ρ → Nat → ringbuf_error × ringbuf_tx × ρ)
    (rb : ρ) (size_ : Int) : Except Exn wrap_ringbuf_tx × ρ :=
  let size := to_int size_
  match check_size size with
  | .error e => (.error e, rb)
  | .ok _ =>
    match ringbuf_enqueue_alloc rb (nb_words_of_size size) with
    | (.RB_ERR_FAILURE, _, rb1) => (.error .Failure, rb1)
    | (.RB_ERR_NO_MORE_ROOM, _, rb1) => (.error .NoMoreRoom, rb1)
    | (.RB_OK, tx, rb1) => (.ok ⟨tx, to_size_t size⟩, rb1)

/-- The function `wrap_ringbuf_tx_size`. -/
def wrap_ringbuf_tx_size (wrtx : wrap_ringbuf_tx) : Int :=
  Val_long (wrtx.alloced : Int)

/-- The function `wrap_ringbuf_dequeue_alloc`, over the core
`ringbuf_dequeue_alloc`. -/
def wrap_ringbuf_dequeue_alloc {ρ : Type}
    (ringbuf_dequeue_alloc : ρ → Int × ringbuf_tx × ρ) (rb : ρ) :
    Except Exn wrap_ringbuf_tx × ρ :=
  match ringbuf_dequeue_alloc rb with
  | (size, tx, rb1) =>
    if size < 0 then (.error .Empty, rb1)
    else (.ok ⟨tx, to_size_t size⟩, rb1)

/-! ## The integer widths of the codec table -/

/-- Modelled from the spec: the boxed integers of the host runtime are not part of
the sources; following the codec table (little-endian, two's complement) a boxed
integer is a custom block whose data are the `n` little-endian bytes of `v`
modulo `2 ^ (8 * n)`. -/
def box (ops : custom_operations) (n : Nat) (v : Int) : custom :=
  ⟨ops, le_bytes n (v % 2 ^ (8 * n)).toNat⟩

/-- Modelled from the spec: the integer that the host reads in a custom block,
unsigned for the `uint` operations and two's complement for the others. -/
def custom.toInt (c : custom) : Int :=
  match c.ops with
  | .uint128_ops => (le_val c.data : Int)
  | .uint64_ops => (le_val c.data : Int)
  | .uint32_ops => (le_val c.data : Int)
  | .int128_ops => le_sval c.data
  | .caml_int64_ops => le_sval c.data
  | .caml_int32_ops => le_sval c.data

/-- The integer widths of the codec table that have both a write and a read. -/
inductive IntWidth
  | u8
  | u16
  | u32
  | i32
  | u64
  | i64
  | u128
  | i128
  deriving DecidableEq, Repr

/-- The number of bytes of a width. -/
def IntWidth.bytes : IntWidth → Nat
  | .u8 => 1
  | .u16 => 2
  | .u32 => 4
  | .i32 => 4
  | .u64 => 8
  | .i64 => 8
  | .u128 => 16
  | .i128 => 16

/-- The values representable in a width. -/
def IntWidth.inRange : IntWidth → Int → Prop
  | .u8, v => 0 ≤ v ∧ v < 2 ^ 8
  | .u16, v => 0 ≤ v ∧ v < 2 ^ 16
  | .u32, v => 0 ≤ v ∧ v < 2 ^ 32
  | .i32, v => -2 ^ 31 ≤ v ∧ v < 2 ^ 31
  | .u64, v => 0 ≤ v ∧ v < 2 ^ 64
  | .i64, v => -2 ^ 63 ≤ v ∧ v < 2 ^ 63
  | .u128, v => 0 ≤ v ∧ v < 2 ^ 128
  | .i128, v => -2 ^ 127 ≤ v ∧ v < 2 ^ 127

/-- The write of the codec table for a width: the C function it is bound to, applied
to the value (unboxed widths) or to its boxed form. -/
def write_W (W : IntWidth) (wrtx : wrap_ringbuf_tx) (mem : Mem) (off_ : Int)
    (v : Int) : Except Exn Mem :=
  match W with
  | .u8 => write_unboxed_8 wrtx mem off_ v
  | .u16 => write_unboxed_16 wrtx mem off_ v
  | .u32 => write_boxed_32 wrtx mem off_ (box .uint32_ops 4 v)
  | .i32 => write_boxed_32 wrtx mem off_ (box .caml_int32_ops 4 v)
  | .u64 => write_boxed_64 wrtx mem off_ (box .uint64_ops 8 v)
  | .i64 => write_boxed_64 wrtx mem off_ (box .caml_int64_ops 8 v)
  | .u128 => write_boxed_128 wrtx mem off_ (box .uint128_ops 16 v)
  | .i128 => write_boxed_128 wrtx mem off_ (box .int128_ops 16 v)

/-- The read of the codec table for a width: the C function it is bound to, and for
the boxed widths the integer that the returned custom block stands for. -/
def read_W (W : IntWidth) (wrtx : wrap_ringbuf_tx) (mem : Mem) (off_ : Int) :
    Except Exn Int :=
  match W with
  | .u8 => read_uint8 wrtx mem off_
  | .u16 => read_uint16 wrtx mem off_
  | .u32 => (read_uint32 wrtx mem off_).map custom.toInt
  | .i32 => (read_int32 wrtx mem off_).map custom.toInt
  | .u64 => (read_uint64 wrtx mem off_).map custom.toInt
  | .i64 => (read_int64 wrtx mem off_).map custom.toInt
  | .u128 => (read_uint128 wrtx mem off_).map custom.toInt
  | .i128 => (read_int128 wrtx mem off_).map custom.toInt

/-- Modelled from the spec: the tagged IP value of the host is not part of the
sources; following the codec table, tag 0 is a v4 address held as a boxed unsigned
32-bit integer. -/
def ip_v4 (a : Int) : ip_block := ⟨0, box .uint32_ops 4 a⟩

/-- Modelled from the spec: tag 1 is a v6 address held as a boxed unsigned 128-bit
integer. -/
def ip_v6 (a : Int) : ip_block := ⟨1, box .uint128_ops 16 a⟩

/-! ## Core operations for concrete runs

The core library is a parameter of the wrappers. To run a wrapper on a concrete
input, these stand for a core acting on a ring without state. -/

/-- A core `ringbuf_enqueue_alloc` that finds room: it returns `RB_OK` and a record
starting at word 1. -/
def enqueue_alloc_with_room : Unit → Nat → ringbuf_error × ringbuf_tx × Unit :=
  fun rb _ => (.RB_OK, ⟨1⟩, rb)

/-- A core `ringbuf_enqueue` that finds room: it returns `RB_OK`. -/
def enqueue_with_room : Unit → List Byte → Nat → Unit → Unit → ringbuf_error × Unit :=
  fun rb _ _ _ _ => (.RB_OK, rb)

/-- A core `ringbuf_read_next` that reports an invalid buffer, return code `-2`. -/
def read_next_invalid : Unit → ringbuf_tx → Int × ringbuf_tx × Unit :=
  fun rb tx => (-2, tx, rb)

/-- A core `ringbuf_read_first` that reports an invalid buffer, return code `-2`. -/
def read_first_invalid : Unit → Int × ringbuf_tx × Unit :=
  fun rb => (-2, ⟨0⟩, rb)

/-- A core `ringbuf_enqueue` that finds room and keeps, in place of a ring, the number
of words it was asked to copy from the payload. -/
def enqueue_counting_words : Nat → List Byte → Nat → Unit → Unit → ringbuf_error × Nat :=
  fun _ _ n _ _ => (.RB_OK, n)

/-! ## The numeric parser -/

/-- The length of the C string held by the bytes of an OCaml string: the number of
bytes before the first NUL. -/
def strlen (s : List Byte) : Nat := (s.takeWhile (fun b => decide (b ≠ 0))).length

/-- The function `wrap_strtod`, over the host `strtod`, which returns the double and
the index where parsing stopped (`end - str`). The bytes of an OCaml string are
followed by a NUL byte, so `*end` is read in `str_ ++ [0]`. -/
def wrap_strtod {F : Type} (strtod : List Byte → F × Nat) (str_ : List Byte) :
    Except Exn F :=
  match strtod str_ with
  | (d, e) => if ((str_ ++ [0]).getD e 0).val ≠ 0 then .error .Failure else .ok d

/-- A host `strtod` for concrete runs on unsigned decimal numbers: it parses the
longest prefix made of digits and points and returns, in place of the double, the
text it parsed. -/
def strtod_decimal (s : List Byte) : List Byte × Nat :=
  ((s.takeWhile (fun b => decide ((48 ≤ b.val ∧ b.val ≤ 57) ∨ b.val = 46))),
    (s.takeWhile (fun b => decide ((48 ≤ b.val ∧ b.val ≤ 57) ∨ b.val = 46))).length)

/-! ## The writes of the codec table -/

/-- A typed write of the codec table with its value: a boxed or an unboxed integer of
some width, a double given by its object representation, or a raw word. -/
inductive typed_write
  | boxed (bits : Nat) (v : custom)
  | unboxed (bits : Nat) (v : Int)
  | float (v : List Byte)
  | word (v : Int)

/-- The number of bytes a typed write copies. -/
def typed_write.width : typed_write → Nat
  | .boxed bits _ => bits / 8
  | .unboxed bits _ => bits / 8
  | .float _ => 8
  | .word _ => 4

/-- The C function a typed write is bound to, applied to its value. -/
def typed_write.run (w : typed_write) (wrtx : wrap_ringbuf_tx) (mem : Mem) (off_ : Int) :
    Except Exn Mem :=
  match w with
  | .boxed bits v => write_boxed bits wrtx mem off_ v
  | .unboxed bits v => write_unboxed bits wrtx mem off_ v
  | .float v => write_float wrtx mem off_ v
  | .word v => write_word wrtx mem off_ v

/-! ## The ring protocol, modelled from the spec

The core library (`ringbuf.h`, `ringbuf.c`) is not part of the sources. What follows
models it from sections 3 and 4 of the spec, for a single thread: a compare-and-swap
succeeds at once and a commit never waits. -/

/-- Modelled from the spec: the ring file of section 3, that is the header fields
and the data area of `struct ringbuf_file`, which the sources do not hold. The four
indices are logical word counters that grow without bound, the physical word index
being the index modulo `nb_words`. -/
structure ringbuf_file (F : Type) where
  nb_words : Nat
  wrap : Bool
  prod_head : Nat
  prod_tail : Nat
  cons_head : Nat
  cons_tail : Nat
  nb_allocs : Nat
  tmin : F
  tmax : F
  first_seq : Nat
  data : Mem

/-- Modelled from the spec: the 32-bit little-endian word of the data area at a
physical word index (the data area of `ringbuf.h` is not part of the sources). -/
def data_word (data : Mem) (w : Nat) : Nat := le_val (memcpy_from data (4 * w) 4)

/-- Modelled from the spec: the store of a 32-bit little-endian word in the data
area at a physical word index. -/
def set_data_word (data : Mem) (w v : Nat) : Mem :=
  memcpy_to data (4 * w) (le_bytes 4 v) 4

/-- Modelled from the spec: the skip marker of section 9, missing from the sources,
is a length prefix with the high bit set, read as: advance by the low bits, no
payload. -/
def skip_marker (pad : Nat) : Nat := 2 ^ 31 + pad

/-- Modelled from the spec: a length prefix with the high bit set is a skip marker
(the test is part of the missing core). -/
def is_skip (w : Nat) : Bool := decide (2 ^ 31 ≤ w)

/-- Modelled from the spec: the low bits of a skip marker, the number of words to
advance by after the marker (part of the missing core). -/
def skip_words (w : Nat) : Nat := w % 2 ^ 31

/-- Modelled from the spec: `reserve(n_words)` of section 4.2, missing from the
sources. When the record would cross the physical end of the data area the
reservation is padded: a skip marker is written at the producer head, covering the
words up to the end, and the record is placed at word 0. The padded reservation
must fit in the free space, or the ring is in wrap mode. The length prefix is
written at once. The result is the logical index of the length prefix, the payload
starting one word further. -/
def ringbuf_reserve {F : Type} (rb : ringbuf_file F) (n_words : Nat) :
    Option (Nat × ringbuf_file F) :=
  let phys := rb.prod_head % rb.nb_words
  let pad := if phys + n_words + 1 > rb.nb_words then rb.nb_words - phys else 0
  let free := rb.nb_words - (rb.prod_head - rb.cons_tail)
  if n_words + 1 + pad > free ∧ rb.wrap = false then none
  else
    let data1 :=
      if pad = 0 then rb.data else set_data_word rb.data phys (skip_marker (pad - 1))
    let start := rb.prod_head + pad
    some (start,
      { rb with
        prod_head := start + n_words + 1,
        data := set_data_word data1 (start % rb.nb_words) n_words })

/-- Modelled from the spec: the enqueue commit of section 4.2, missing from the
sources: the time envelope is widened, `nb_allocs` incremented and the producer
tail set to `record_start + n_words`. -/
def ringbuf_enqueue_commit {F : Type} [Min F] [Max F] (rb : ringbuf_file F)
    (record_start n_words : Nat) (tmin tmax : F) : ringbuf_file F :=
  { rb with
    tmin := min tmin rb.tmin,
    tmax := max tmax rb.tmax,
    nb_allocs := rb.nb_allocs + 1,
    prod_tail := record_start + n_words }

/-- Modelled from the spec: the high-level `enqueue` of section 6, the core
`ringbuf_enqueue` missing from the sources: reserve `nb_words` words, copy that many
words of the payload right after the length prefix, commit. -/
def ringbuf_enqueue {F : Type} [Min F] [Max F] (rb : ringbuf_file F) (bytes : List Byte)
    (nb_words : Nat) (tmin tmax : F) : ringbuf_error × ringbuf_file F :=
  match ringbuf_reserve rb nb_words with
  | none => (.RB_ERR_NO_MORE_ROOM, rb)
  | some (start, rb1) =>
    (.RB_OK,
      ringbuf_enqueue_commit
        { rb1 with
          data := memcpy_to rb1.data (4 * (start % rb1.nb_words + 1)) bytes (4 * nb_words) }
        (start + 1) nb_words tmin tmax)

/-- Modelled from the spec: the dequeue reservation of section 4.2, the core
`ringbuf_dequeue_alloc` missing from the sources. An empty ring gives `-1`.
Otherwise a skip marker at the consumer head is passed over, the consumer head is
moved forward by the length prefix plus one, and the result is the size in bytes
and a transaction whose `record_start` is the physical word index of the payload. -/
def ringbuf_dequeue_alloc {F : Type} (rb : ringbuf_file F) :
    Int × ringbuf_tx × ringbuf_file F :=
  if rb.cons_head = rb.prod_tail then (-1, ⟨0⟩, rb)
  else
    let w := data_word rb.data (rb.cons_head % rb.nb_words)
    let head := if is_skip w then rb.cons_head + 1 + skip_words w else rb.cons_head
    let n := data_word rb.data (head % rb.nb_words)
    (((4 * n : Nat) : Int), ⟨head % rb.nb_words + 1⟩, { rb with cons_head := head + n + 1 })

/-- The records found in the data area from the logical index `i` up to `j`: each
is, after `s` words skipped at the physical end (none when `s = 0`, else a skip
marker and its padding), a length prefix `n` and a payload `p` of `n` words that do
not cross the physical end. -/
inductive Parses (N : Nat) (data : Mem) : Nat → List (List Byte) → Nat → Prop
  | nil (i : Nat) : Parses N data i [] i
  | cons (i s n : Nat) (p : List Byte) (q : List (List Byte)) (j : Nat)
      (hs : s = 0 ∨ (0 < s ∧ data_word data (i % N) = skip_marker (s - 1) ∧
        i % N + s = N ∧ s ≤ 2 ^ 31))
      (hn : data_word data ((i + s) % N) = n) (hn31 : n < 2 ^ 31)
      (hfit : (i + s) % N + n + 1 ≤ N)
      (hp : memcpy_from data (4 * ((i + s) % N + 1)) (4 * n) = p)
      (rest : Parses N data (i + s + n + 1) q j) :
      Parses N data i (p :: q) j

theorem and_three_eq_mod (n : Nat) : n &&& 3 = n % 4 :=
  Nat.and_pow_two_sub_one_eq_mod n 2

theorem to_size_t_ofNat (o : Nat) : to_size_t (o : Int) = o % 2 ^ 64 := by
  unfold to_size_t
  omega

theorem le_bytes_length (n v : Nat) : (le_bytes n v).length = n := by
  induction n generalizing v with
  | zero => rfl
  | succ k ih => simp [le_bytes, ih]

theorem le_val_le_bytes (n v : Nat) : le_val (le_bytes n v) = v % 256 ^ n := by
  induction n generalizing v with
  | zero => simp [le_bytes, le_val, Nat.mod_one]
  | succ k ih =>
    simp only [le_bytes, le_val, ih, toByte]
    rw [pow_succ, Nat.mul_comm (256 ^ k) 256, Nat.mod_mul]

theorem le_val_lt (bs : List Byte) : le_val bs < 256 ^ bs.length := by
  induction bs with
  | nil => simp [le_val]
  | cons b bs ih =>
    simp only [le_val, List.length_cons, pow_succ]
    have hb := b.isLt
    omega

theorem memcpy_to_inside (mem : Mem) (addr : Nat) (src : List Byte) (size i : Nat)
    (hi : i < size) : memcpy_to mem addr src size (addr + i) = src.getD i 0 := by
  unfold memcpy_to
  have h : addr ≤ addr + i ∧ addr + i < addr + size := ⟨by omega, by omega⟩
  rw [if_pos h, Nat.add_sub_cancel_left]

theorem memcpy_to_outside (mem : Mem) (addr : Nat) (src : List Byte) (size a : Nat)
    (ha : a < addr ∨ addr + size ≤ a) : memcpy_to mem addr src size a = mem a := by
  unfold memcpy_to
  have h : ¬ (addr ≤ a ∧ a < addr + size) := by omega
  rw [if_neg h]

theorem memcpy_from_congr (m1 m2 : Mem) (addr size : Nat)
    (h : ∀ i, i < size → m1 (addr + i) = m2 (addr + i)) :
    memcpy_from m1 addr size = memcpy_from m2 addr size := by
  unfold memcpy_from
  apply List.map_congr_left
  intro i hi
  exact h i (List.mem_range.mp hi)

theorem memcpy_from_memcpy_to (mem : Mem) (addr : Nat) (src : List Byte) (size : Nat)
    (h : src.length = size) :
    memcpy_from (memcpy_to mem addr src size) addr size = src := by
  subst h
  apply List.ext_getElem
  · simp [memcpy_from]
  · intro n h1 h2
    simp only [memcpy_from, List.getElem_map, List.getElem_range]
    rw [memcpy_to_inside mem addr src src.length n h2, List.getD_eq_getElem src 0 h2]

theorem write_words_ok (wrtx : wrap_ringbuf_tx) (mem : Mem) (offs : Nat)
    (src : List Byte) (size : Nat) (ha : offs % 4 = 0)
    (hb : (size + offs) % 2 ^ 64 ≤ wrtx.alloced) (hs : size ≤ 8096) :
    write_words wrtx mem offs src size
      = .ok (memcpy_to mem (where_to wrtx offs) src size) := by
  unfold write_words
  rw [if_neg (by simp [and_three_eq_mod, ha]), if_neg (not_not.mpr hb),
    if_neg (not_not.mpr (by simpa [MAX_RINGBUF_MSG_SIZE] using hs))]

theorem read_words_ok (wrtx : wrap_ringbuf_tx) (mem : Mem) (offs size : Nat)
    (ha : offs % 4 = 0) (hb : (size + offs) % 2 ^ 64 ≤ wrtx.alloced)
    (hs : size ≤ 8096) :
    read_words wrtx mem offs size = .ok (memcpy_from mem (where_to wrtx offs) size) := by
  unfold read_words
  rw [if_neg (by simp [and_three_eq_mod, ha]), if_neg (not_not.mpr hb),
    if_neg (not_not.mpr (by simpa [MAX_RINGBUF_MSG_SIZE] using hs))]

/-- Reading back `size` bytes at the offset where `size` bytes were just written
gives the bytes written. -/
theorem read_words_write_words (wrtx : wrap_ringbuf_tx) (mem : Mem) (off_ : Int)
    (src : List Byte) (size : Nat) (hl : src.length = size)
    (ha : to_size_t off_ % 4 = 0)
    (hb : (size + to_size_t off_) % 2 ^ 64 ≤ wrtx.alloced) (hs : size ≤ 8096) :
    ∃ mem1, write_words wrtx mem (to_size_t off_) src size = .ok mem1 ∧
      read_words wrtx mem1 (to_size_t off_) size = .ok src := by
  refine ⟨_, write_words_ok wrtx mem _ src size ha hb hs, ?_⟩
  rw [read_words_ok wrtx _ _ size ha hb hs, memcpy_from_memcpy_to _ _ _ _ hl]

theorem bounds_ofNat (wrtx : wrap_ringbuf_tx) (o n : Nat) (h : o + n ≤ wrtx.alloced) :
    (n + to_size_t (o : Int)) % 2 ^ 64 ≤ wrtx.alloced := by
  rw [to_size_t_ofNat]
  have h1 := Nat.mod_le (n + o % 2 ^ 64) (2 ^ 64)
  have h2 := Nat.mod_le o (2 ^ 64)
  omega

theorem aligned_ofNat (o : Nat) (h : o % 4 = 0) : to_size_t (o : Int) % 4 = 0 := by
  rw [to_size_t_ofNat]
  omega

/-- An unboxed write followed by the unsigned unboxed read of the same width. -/
theorem read_unboxed_write_unboxed (bits n : Nat) (hn : bits / 8 = n) (hbits : bits = 8 * n)
    (hs : n ≤ 8) (wrtx : wrap_ringbuf_tx) (mem : Mem) (o : Nat) (v : Int)
    (ha : o % 4 = 0) (hb : o + n ≤ wrtx.alloced) (h0 : 0 ≤ v) (h1 : v < 2 ^ bits)
    (h2 : (2 : Int) ^ bits ≤ 2 ^ 62) :
    ∃ mem1, write_unboxed bits wrtx mem o v = .ok mem1 ∧
      read_unboxed false bits wrtx mem1 o = .ok v := by
  obtain ⟨mem1, hw, hr⟩ := read_words_write_words wrtx mem o
    (le_bytes n (v % 2 ^ bits).toNat) n (le_bytes_length _ _) (aligned_ofNat o ha)
    (bounds_ofNat wrtx o n hb) (by omega)
  refine ⟨mem1, by simpa [write_unboxed, hn] using hw, ?_⟩
  simp only [read_unboxed, hn, hr, le_val_le_bytes]
  have e : (256 : Nat) ^ n = 2 ^ bits := by
    rw [hbits, pow_mul]
    norm_num
  rw [e, Int.emod_eq_of_lt h0 h1]
  have h3 : v.toNat < 2 ^ bits := by
    have : ((v.toNat : Nat) : Int) < ((2 ^ bits : Nat) : Int) := by
      rw [Int.toNat_of_nonneg h0]
      exact_mod_cast h1
    exact_mod_cast this
  rw [Nat.mod_eq_of_lt h3]
  simp only [Bool.false_eq_true, if_false, Int.toNat_of_nonneg h0, Val_long]
  congr 1
  omega

/-- A boxed write followed by the boxed read of the same width: the custom block
read has the operations of the read and the data written. -/
theorem read_boxed_write_boxed (bits n : Nat) (hn : bits / 8 = n) (hs : n ≤ 16)
    (ops ops1 : custom_operations) (wrtx : wrap_ringbuf_tx) (mem : Mem) (o : Nat)
    (v : Int) (ha : o % 4 = 0) (hb : o + n ≤ wrtx.alloced) :
    ∃ mem1, write_boxed bits wrtx mem o (box ops n v) = .ok mem1 ∧
      read_boxed bits ops1 wrtx mem1 o = .ok (box ops1 n v) := by
  obtain ⟨mem1, hw, hr⟩ := read_words_write_words wrtx mem o
    (le_bytes n (v % 2 ^ (8 * n)).toNat) n (le_bytes_length _ _) (aligned_ofNat o ha)
    (bounds_ofNat wrtx o n hb) (by omega)
  refine ⟨mem1, by simpa [write_boxed, hn, box] using hw, ?_⟩
  simp only [read_boxed, hn, hr, box]

theorem toInt_box_unsigned (ops : custom_operations) (n : Nat) (v : Int)
    (hops : ops = .uint128_ops ∨ ops = .uint64_ops ∨ ops = .uint32_ops)
    (h0 : 0 ≤ v) (h1 : v < 2 ^ (8 * n)) : (box ops n v).toInt = v := by
  have e : (box ops n v).toInt = (le_val (box ops n v).data : Int) := by
    rcases hops with h | h | h <;> subst h <;> rfl
  rw [e]
  simp only [box, le_val_le_bytes]
  have e2 : (256 : Nat) ^ n = 2 ^ (8 * n) := by
    rw [pow_mul]
    norm_num
  rw [e2, Int.emod_eq_of_lt h0 h1]
  have h3 : v.toNat < 2 ^ (8 * n) := by
    have : ((v.toNat : Nat) : Int) < ((2 ^ (8 * n) : Nat) : Int) := by
      rw [Int.toNat_of_nonneg h0]
      exact_mod_cast h1
    exact_mod_cast this
  rw [Nat.mod_eq_of_lt h3, Int.toNat_of_nonneg h0]

theorem toInt_box_signed (ops : custom_operations) (n : Nat) (v : Int)
    (hops : ops = .int128_ops ∨ ops = .caml_int64_ops ∨ ops = .caml_int32_ops)
    (hn : 0 < n) (h0 : -2 ^ (8 * n - 1) ≤ v) (h1 : v < 2 ^ (8 * n - 1)) :
    (box ops n v).toInt = v := by
  have e : (box ops n v).toInt = le_sval (box ops n v).data := by
    rcases hops with h | h | h <;> subst h <;> rfl
  rw [e]
  simp only [box, le_sval, le_val_le_bytes, le_bytes_length]
  have e2 : (256 : Nat) ^ n = 2 ^ (8 * n) := by
    rw [pow_mul]
    norm_num
  rw [e2]
  have e3 : (2 : Int) ^ (8 * n) = 2 * 2 ^ (8 * n - 1) := by
    rw [← pow_succ']
    congr 1
    omega
  have e4 : (2 : Nat) ^ (8 * n) = 2 * 2 ^ (8 * n - 1) := by
    rw [← pow_succ']
    congr 1
    omega
  have hp : (0 : Int) < 2 ^ (8 * n - 1) := by positivity
  have hc : ((2 ^ (8 * n - 1) : Nat) : Int) = (2 : Int) ^ (8 * n - 1) := by push_cast; rfl
  generalize (2 : Int) ^ (8 * n - 1) = P at *
  generalize (2 : Nat) ^ (8 * n - 1) = Q at *
  rw [e3, e4]
  have hm : ((v % (2 * P)).toNat % (2 * Q) : Nat) = (v % (2 * P)).toNat := by
    apply Nat.mod_eq_of_lt
    have := Int.emod_lt_of_pos v (show (0 : Int) < 2 * P by omega)
    have := Int.emod_nonneg v (show (2 * P : Int) ≠ 0 by omega)
    omega
  rw [hm]
  have hnn := Int.emod_nonneg v (show (2 * P : Int) ≠ 0 by omega)
  by_cases hv : 0 ≤ v
  · have := Int.emod_eq_of_lt hv (show v < 2 * P by omega)
    rw [this]
    rw [if_pos (by omega)]
    omega
  · have h5 : v % (2 * P) = v + 2 * P := by
      have := Int.emod_eq_of_lt (show 0 ≤ v + 2 * P by omega) (show v + 2 * P < 2 * P by omega)
      rw [← this]
      simp
    rw [h5, if_neg (by omega)]
    omega

/-! ## Lemmas on bits -/

theorem mask_eq_two_pow (k : Nat) (hk : k < 8) : (1 <<< k) % 256 = 2 ^ k := by
  rw [Nat.one_shiftLeft]
  interval_cases k <;> rfl

theorem and_two_pow_ne_zero (y b : Nat) : (y &&& 2 ^ b ≠ 0) ↔ y.testBit b = true := by
  rw [Nat.and_two_pow]
  cases y.testBit b <;> simp

theorem to_unsigned_ofNat (i : Nat) (h : i < 2 ^ 32) : to_unsigned (i : Int) = i := by
  unfold to_unsigned
  omega

theorem get_bit_ok (wrtx : wrap_ringbuf_tx) (mem : Mem) (j : Nat) (hj32 : j < 2 ^ 32)
    (hj : j / 8 < wrtx.alloced) :
    get_bit wrtx mem j = .ok ((mem (where_to wrtx 0 + j / 8)).val.testBit (j % 8)) := by
  unfold get_bit
  simp only [to_unsigned_ofNat j hj32]
  rw [if_neg (not_not.mpr hj), mask_eq_two_pow _ (Nat.mod_lt _ (by norm_num))]
  congr 1
  rw [Bool.eq_iff_iff]
  simp only [decide_eq_true_eq]
  exact and_two_pow_ne_zero _ _

theorem set_bit_ok (wrtx : wrap_ringbuf_tx) (mem : Mem) (i : Nat) (hi32 : i < 2 ^ 32)
    (hi : i / 8 < wrtx.alloced) :
    set_bit wrtx mem i = .ok (Function.update mem (where_to wrtx 0 + i / 8)
      (toByte ((mem (where_to wrtx 0 + i / 8)).val ||| 2 ^ (i % 8)))) := by
  unfold set_bit
  simp only [to_unsigned_ofNat i hi32]
  rw [if_neg (not_not.mpr hi), mask_eq_two_pow _ (Nat.mod_lt _ (by norm_num))]

theorem toByte_or_val (x : Byte) (k : Nat) (hk : k < 8) :
    (toByte (x.val ||| 2 ^ k)).val = x.val ||| 2 ^ k := by
  unfold toByte
  apply Nat.mod_eq_of_lt
  have h1 : x.val < 2 ^ 8 := x.isLt
  have h2 : 2 ^ k < 2 ^ 8 := Nat.pow_lt_pow_right (by norm_num) hk
  exact Nat.or_lt_two_pow h1 h2

/-! ## Lemmas on two successive accesses -/

theorem write_words_inv {wrtx : wrap_ringbuf_tx} {mem : Mem} {offs : Nat}
    {src : List Byte} {size : Nat} {m : Mem}
    (h : write_words wrtx mem offs src size = .ok m) :
    offs % 4 = 0 ∧ (size + offs) % 2 ^ 64 ≤ wrtx.alloced ∧ size ≤ 8096 ∧
      m = memcpy_to mem (where_to wrtx offs) src size := by
  unfold write_words at h
  split_ifs at h with h1 h2 h3
  simp only [MAX_RINGBUF_MSG_SIZE, not_not, and_three_eq_mod] at h1 h2 h3
  injection h with h
  exact ⟨h1, h2, h3, h.symm⟩

theorem where_to_aligned (wrtx : wrap_ringbuf_tx) (offs : Nat) (h : offs % 4 = 0) :
    where_to wrtx offs = 4 * wrtx.tx.record_start + offs := by
  unfold where_to
  omega

/-- The offset that `write_ip` and `read_ip` hand to the access of the address is
four bytes further, or at least `2 ^ 62` bytes away. -/
theorem next_offset_cases (offs : Nat) :
    to_size_t (Val_long (((offs + 4) % 2 ^ 64 : Nat) : Int)) = offs + 4 ∨
      to_size_t (Val_long (((offs + 4) % 2 ^ 64 : Nat) : Int)) + 2 ^ 62 ≤ offs ∨
      offs + 2 ^ 62 ≤ to_size_t (Val_long (((offs + 4) % 2 ^ 64 : Nat) : Int)) := by
  unfold to_size_t Val_long
  omega

theorem next_offset_separated (wrtx : wrap_ringbuf_tx) (offs n : Nat) (hn : n ≤ 16)
    (ha : offs % 4 = 0)
    (ha1 : to_size_t (Val_long (((offs + 4) % 2 ^ 64 : Nat) : Int)) % 4 = 0) :
    ∀ i, i < 4 →
      (where_to wrtx offs + i
          < where_to wrtx (to_size_t (Val_long (((offs + 4) % 2 ^ 64 : Nat) : Int))) ∨
        where_to wrtx (to_size_t (Val_long (((offs + 4) % 2 ^ 64 : Nat) : Int))) + n
          ≤ where_to wrtx offs + i) := by
  intro i hi
  rw [where_to_aligned wrtx _ ha, where_to_aligned wrtx _ ha1]
  have h := next_offset_cases offs
  generalize to_size_t (Val_long (((offs + 4) % 2 ^ 64 : Nat) : Int)) = o1 at *
  omega

theorem read_after_two_writes (n : Nat)
    (wrtx : wrap_ringbuf_tx) (mem m mem1 : Mem) (offs tag offs1 : Nat)
    (src : List Byte) (hl : src.length = n)
    (hsep : ∀ i, i < 4 → (where_to wrtx offs + i < where_to wrtx offs1 ∨
        where_to wrtx offs1 + n ≤ where_to wrtx offs + i))
    (hw1 : write_words wrtx mem offs (le_bytes 4 tag) 4 = .ok m)
    (hw : write_words wrtx m offs1 src n = .ok mem1) :
    read_words wrtx mem1 offs 4 = .ok (le_bytes 4 tag) ∧
      read_words wrtx mem1 offs1 n = .ok src := by
  obtain ⟨a1, b1, s1, e1⟩ := write_words_inv hw1
  obtain ⟨a2, b2, s2, e2⟩ := write_words_inv hw
  subst e1
  subst e2
  constructor
  · rw [read_words_ok wrtx _ offs 4 a1 b1 s1,
      memcpy_from_congr _ (memcpy_to mem (where_to wrtx offs) (le_bytes 4 tag) 4)
        _ 4 (fun i hi => memcpy_to_outside _ _ _ _ _ (hsep i hi)),
      memcpy_from_memcpy_to _ _ _ 4 (le_bytes_length 4 _)]
  · rw [read_words_ok wrtx _ _ n a2 b2 s2, memcpy_from_memcpy_to _ _ _ _ hl]

theorem write_ip_tag0 (wrtx : wrap_ringbuf_tx) (mem : Mem) (off_ : Int) (c : custom) :
    write_ip wrtx mem off_ ⟨0, c⟩ =
      match write_words wrtx mem (to_size_t off_) (le_bytes 4 0) 4 with
      | .error e => .error e
      | .ok m => write_words wrtx m
          (to_size_t (Val_long (((to_size_t off_ + 4) % 2 ^ 64 : Nat) : Int))) c.data 4 := by
  have e0 : (0 : Nat) % 2 ^ 32 = 0 := by norm_num
  have e1 : (32 : Nat) / 8 = 4 := by norm_num
  simp only [write_ip, write_boxed_32, write_boxed, e0, e1]
  rw [if_neg (by simp)]
  cases write_words wrtx mem (to_size_t off_) (le_bytes 4 0) 4 with
  | error e => rfl
  | ok m => simp only [if_true]

theorem write_ip_tag1 (wrtx : wrap_ringbuf_tx) (mem : Mem) (off_ : Int) (c : custom) :
    write_ip wrtx mem off_ ⟨1, c⟩ =
      match write_words wrtx mem (to_size_t off_) (le_bytes 4 1) 4 with
      | .error e => .error e
      | .ok m => write_words wrtx m
          (to_size_t (Val_long (((to_size_t off_ + 4) % 2 ^ 64 : Nat) : Int))) c.data 16 := by
  have e0 : (1 : Nat) % 2 ^ 32 = 1 := by norm_num
  have e1 : (128 : Nat) / 8 = 16 := by norm_num
  simp only [write_ip, write_boxed_128, write_boxed, e0, e1]
  rw [if_neg (by simp)]
  cases write_words wrtx mem (to_size_t off_) (le_bytes 4 1) 4 with
  | error e => rfl
  | ok m => simp only [one_ne_zero, if_false]


theorem read_boxed_eq (bits : Nat) (ops : custom_operations) (wrtx : wrap_ringbuf_tx)
    (mem : Mem) (off_ : Int) :
    read_boxed bits ops wrtx mem off_ =
      (read_words wrtx mem (to_size_t off_) (bits / 8)).map (fun d => ⟨ops, d⟩) := by
  unfold read_boxed
  cases read_words wrtx mem (to_size_t off_) (bits / 8) <;> rfl

theorem read_ip_tag0 (wrtx : wrap_ringbuf_tx) (mem : Mem) (off_ : Int) (dst : List Byte)
    (h : read_words wrtx mem (to_size_t off_) 4 = .ok dst) (ht : le_val dst = 0) :
    read_ip wrtx mem off_ =
      (read_words wrtx mem
          (to_size_t (Val_long (((to_size_t off_ + 4) % 2 ^ 64 : Nat) : Int))) 4).map
        (fun a => ⟨0, ⟨.uint32_ops, a⟩⟩) := by
  have e1 : (32 : Nat) / 8 = 4 := by norm_num
  simp only [read_ip, h]
  rw [if_pos ht, show read_uint32 = read_boxed 32 .uint32_ops from rfl,
    read_boxed_eq, e1, ht]
  cases read_words wrtx mem
    (to_size_t (Val_long (((to_size_t off_ + 4) % 2 ^ 64 : Nat) : Int))) 4 <;> rfl

theorem read_ip_tag1 (wrtx : wrap_ringbuf_tx) (mem : Mem) (off_ : Int) (dst : List Byte)
    (h : read_words wrtx mem (to_size_t off_) 4 = .ok dst) (ht : le_val dst = 1) :
    read_ip wrtx mem off_ =
      (read_words wrtx mem
          (to_size_t (Val_long (((to_size_t off_ + 4) % 2 ^ 64 : Nat) : Int))) 16).map
        (fun a => ⟨1, ⟨.uint128_ops, a⟩⟩) := by
  have h0 : le_val dst ≠ 0 := by omega
  have h1 : ¬ ¬ (le_val dst = 1) := not_not.mpr ht
  have e1 : (128 : Nat) / 8 = 16 := by norm_num
  simp only [read_ip, h]
  rw [if_neg h0, if_neg h1, show read_uint128 = read_boxed 128 .uint128_ops from rfl,
    read_boxed_eq, e1, ht]
  cases read_words wrtx mem
    (to_size_t (Val_long (((to_size_t off_ + 4) % 2 ^ 64 : Nat) : Int))) 16 <;> rfl

theorem read_ip_bad_tag (wrtx : wrap_ringbuf_tx) (mem : Mem) (off_ : Int) (dst : List Byte)
    (h : read_words wrtx mem (to_size_t off_) 4 = .ok dst) (h0 : le_val dst ≠ 0)
    (h1 : le_val dst ≠ 1) :
    read_ip wrtx mem off_ = .error .Assert_failure := by
  simp only [read_ip, h]
  rw [if_neg h0, if_pos h1]

theorem le_val_tag0 : le_val (le_bytes 4 0) = 0 := by decide

theorem le_val_tag1 : le_val (le_bytes 4 1) = 1 := by decide

theorem read_words_err (wrtx : wrap_ringbuf_tx) (mem : Mem) (offs size : Nat)
    (hb : ¬ ((size + offs) % 2 ^ 64 ≤ wrtx.alloced)) :
    read_words wrtx mem offs size = .error .Assert_failure := by
  unfold read_words
  by_cases h : offs &&& 3 ≠ 0
  · rw [if_pos h]
  · rw [if_neg h, if_pos hb]

theorem next_offset_small (o : Nat) (ho : o + 4 < 2 ^ 62) :
    to_size_t (Val_long (((to_size_t (o : Int) + 4) % 2 ^ 64 : Nat) : Int)) = o + 4 := by
  unfold to_size_t Val_long
  omega

theorem to_size_t_small (o : Nat) (ho : o < 2 ^ 64) : to_size_t (o : Int) = o := by
  unfold to_size_t
  omega

theorem memcpy_from_six (mem : Mem) (a : Nat) :
    memcpy_from mem a 6
      = [mem (a + 0), mem (a + 1), mem (a + 2), mem (a + 3), mem (a + 4), mem (a + 5)] :=
  rfl

theorem memcpy_from_eight (mem : Mem) (a : Nat) :
    memcpy_from mem a 8
      = [mem (a + 0), mem (a + 1), mem (a + 2), mem (a + 3), mem (a + 4), mem (a + 5),
          mem (a + 6), mem (a + 7)] :=
  rfl

theorem le_val_six_of_eight (mem : Mem) (a : Nat) :
    le_val (memcpy_from mem a 6) = le_val (memcpy_from mem a 8) % 2 ^ 48 := by
  rw [memcpy_from_six, memcpy_from_eight]
  simp only [le_val]
  have h0 := (mem (a + 0)).isLt
  have h1 := (mem (a + 1)).isLt
  have h2 := (mem (a + 2)).isLt
  have h3 := (mem (a + 3)).isLt
  have h4 := (mem (a + 4)).isLt
  have h5 := (mem (a + 5)).isLt
  omega

/-! ## Lemmas on the size check -/

theorem check_size_invalid (size_ : Int)
    (h : size_ % 4 ≠ 0 ∨ (8096 < size_ ∧ size_ < 2 ^ 31)) :
    check_size (to_int size_) = .error .Invalid_argument := by
  unfold check_size
  rw [and_three_eq_mod]
  by_cases h4 : size_ % 4 = 0
  · have hr : 8096 < size_ ∧ size_ < 2 ^ 31 := by
      rcases h with h | h
      · exact absurd h4 h
      · exact h
    have e : to_int size_ = size_ := by
      unfold to_int
      omega
    rw [e, if_neg (by unfold to_unsigned; omega), if_pos (by simp only [MAX_RINGBUF_MSG_SIZE]; omega)]
  · rw [if_pos (by unfold to_unsigned to_int; omega)]

/-! ## Round trips of the typed codec -/

/-- Claim C1. For each integer width of the codec table, a read at a word-aligned
offset `o` with `o + W/8 ≤ alloced`, made right after the write of a representable
value `v` at `o`, succeeds and returns `v`: the unsigned widths read it back
zero-extended, the signed ones sign-extended. -/
theorem typed_read_after_write (W : IntWidth) (wrtx : wrap_ringbuf_tx) (mem : Mem)
    (o : Nat) (v : Int) (ha : o % 4 = 0) (hb : o + W.bytes ≤ wrtx.alloced)
    (hv : W.inRange v) :
    ∃ mem1, write_W W wrtx mem o v = .ok mem1 ∧ read_W W wrtx mem1 o = .ok v := by
  cases W with
  | u8 =>
    exact read_unboxed_write_unboxed 8 1 rfl rfl (by omega) wrtx mem o v ha hb hv.1 hv.2
      (by norm_num)
  | u16 =>
    exact read_unboxed_write_unboxed 16 2 rfl rfl (by omega) wrtx mem o v ha hb hv.1 hv.2
      (by norm_num)
  | u32 =>
    obtain ⟨mem1, hw, hr⟩ := read_boxed_write_boxed 32 4 rfl (by omega) .uint32_ops
      .uint32_ops wrtx mem o v ha hb
    refine ⟨mem1, hw, ?_⟩
    simp only [read_W, read_uint32, hr, Except.map]
    rw [toInt_box_unsigned _ 4 v (by simp) hv.1 hv.2]
  | i32 =>
    obtain ⟨mem1, hw, hr⟩ := read_boxed_write_boxed 32 4 rfl (by omega) .caml_int32_ops
      .caml_int32_ops wrtx mem o v ha hb
    refine ⟨mem1, hw, ?_⟩
    simp only [read_W, read_int32, hr, Except.map]
    rw [toInt_box_signed _ 4 v (by simp) (by omega) hv.1 hv.2]
  | u64 =>
    obtain ⟨mem1, hw, hr⟩ := read_boxed_write_boxed 64 8 rfl (by omega) .uint64_ops
      .uint64_ops wrtx mem o v ha hb
    refine ⟨mem1, hw, ?_⟩
    simp only [read_W, read_uint64, hr, Except.map]
    rw [toInt_box_unsigned _ 8 v (by simp) hv.1 hv.2]
  | i64 =>
    obtain ⟨mem1, hw, hr⟩ := read_boxed_write_boxed 64 8 rfl (by omega) .caml_int64_ops
      .caml_int64_ops wrtx mem o v ha hb
    refine ⟨mem1, hw, ?_⟩
    simp only [read_W, read_int64, hr, Except.map]
    rw [toInt_box_signed _ 8 v (by simp) (by omega) hv.1 hv.2]
  | u128 =>
    obtain ⟨mem1, hw, hr⟩ := read_boxed_write_boxed 128 16 rfl (by omega) .uint128_ops
      .uint128_ops wrtx mem o v ha hb
    refine ⟨mem1, hw, ?_⟩
    simp only [read_W, read_uint128, hr, Except.map]
    rw [toInt_box_unsigned _ 16 v (by simp) hv.1 hv.2]
  | i128 =>
    obtain ⟨mem1, hw, hr⟩ := read_boxed_write_boxed 128 16 rfl (by omega) .int128_ops
      .int128_ops wrtx mem o v ha hb
    refine ⟨mem1, hw, ?_⟩
    simp only [read_W, read_int128, hr, Except.map]
    rw [toInt_box_signed _ 16 v (by simp) (by omega) hv.1 hv.2]

/-- Claim C1 at a concrete input: the signed 64-bit value `-2` written at offset 8
of a 16-byte slot is read back. -/
theorem typed_read_after_write_witness :
    (8 % 4 = 0 ∧ 8 + IntWidth.bytes .i64 ≤ (⟨⟨3⟩, 16⟩ : wrap_ringbuf_tx).alloced ∧
      IntWidth.inRange .i64 (-2)) ∧
    ∃ mem1, write_W .i64 ⟨⟨3⟩, 16⟩ (fun _ => 0) ((8 : Nat) : Int) (-2) = .ok mem1 ∧
      read_W .i64 ⟨⟨3⟩, 16⟩ mem1 ((8 : Nat) : Int) = .ok (-2) :=
  ⟨⟨by decide, by decide, by constructor <;> norm_num⟩,
    typed_read_after_write .i64 ⟨⟨3⟩, 16⟩ (fun _ => 0) 8 (-2) (by decide) (by decide)
      (by constructor <;> norm_num)⟩

/-! ## Bounds checks -/

/-- Claim C2, at the inputs where the code departs from it. On a transaction with
4 bytes allocated, `write_word` at offset 4 and `zero_bytes` of 8 bytes at offset 0
are out of bounds (`offset + width > alloced`), yet both return normally and bytes
past the 4 allocated ones are changed: `write_word` and `zero_bytes` assert the
alignment only, where `write_words` and `read_words` also assert the bounds. -/
theorem write_word_zero_bytes_unchecked :
    (4 + 4 > (⟨⟨0⟩, 4⟩ : wrap_ringbuf_tx).alloced ∧
      ∃ mem1, write_word ⟨⟨0⟩, 4⟩ (fun _ => 0) 4 7 = .ok mem1 ∧
        memcpy_from mem1 0 8 = [0, 0, 0, 0, 7, 0, 0, 0]) ∧
    (0 + 8 > (⟨⟨0⟩, 4⟩ : wrap_ringbuf_tx).alloced ∧
      ∃ mem1, zero_bytes ⟨⟨0⟩, 4⟩ (fun _ => 255) 0 8 = .ok mem1 ∧
        memcpy_from mem1 0 12 = [0, 0, 0, 0, 0, 0, 0, 0, 255, 255, 255, 255]) :=
  ⟨⟨by decide, _, rfl, by decide⟩, ⟨by decide, _, rfl, by decide⟩⟩

/-! ## Bits of the nullmask -/

/-- Claim C3. For every transaction within the invariant of the spec
(`alloced ≤ MAX_RINGBUF_MSG_SIZE`) and all bit indices `i` and `j` with `i / 8` and
`j / 8` below `alloced`: `set_bit` at `i` succeeds, and afterwards `get_bit` at `j`
is `j = i` or the value `get_bit` at `j` had before, which is bit `j mod 8` of byte
`j / 8` of the slot. -/
theorem get_bit_after_set_bit (wrtx : wrap_ringbuf_tx) (mem : Mem) (i j : Nat)
    (hinv : wrtx.alloced ≤ MAX_RINGBUF_MSG_SIZE)
    (hi : i / 8 < wrtx.alloced) (hj : j / 8 < wrtx.alloced) :
    ∃ mem1 b, set_bit wrtx mem i = .ok mem1 ∧ get_bit wrtx mem j = .ok b ∧
      b = (mem (where_to wrtx 0 + j / 8)).val.testBit (j % 8) ∧
      get_bit wrtx mem1 j = .ok (decide (j = i) || b) := by
  have hi32 : i < 2 ^ 32 := by
    simp only [MAX_RINGBUF_MSG_SIZE] at hinv
    omega
  have hj32 : j < 2 ^ 32 := by
    simp only [MAX_RINGBUF_MSG_SIZE] at hinv
    omega
  refine ⟨_, _, set_bit_ok wrtx mem i hi32 hi, get_bit_ok wrtx mem j hj32 hj, rfl, ?_⟩
  rw [get_bit_ok wrtx _ j hj32 hj]
  congr 1
  by_cases hbyte : j / 8 = i / 8
  · rw [hbyte, Function.update_same, toByte_or_val _ _ (Nat.mod_lt _ (by norm_num)),
      Nat.testBit_or, Nat.testBit_two_pow, Bool.or_comm]
    congr 1
    rw [Bool.eq_iff_iff]
    simp only [decide_eq_true_eq]
    omega
  · have hne : where_to wrtx 0 + j / 8 ≠ where_to wrtx 0 + i / 8 := by omega
    have hji : j ≠ i := fun h => hbyte (by rw [h])
    rw [Function.update_noteq hne]
    simp [hji]

/-- Claim C3 at a concrete input: bit 3 set in an 8-byte slot, bit 17 read. -/
theorem get_bit_after_set_bit_witness :
    ((⟨⟨0⟩, 8⟩ : wrap_ringbuf_tx).alloced ≤ MAX_RINGBUF_MSG_SIZE ∧
      3 / 8 < (⟨⟨0⟩, 8⟩ : wrap_ringbuf_tx).alloced ∧
      17 / 8 < (⟨⟨0⟩, 8⟩ : wrap_ringbuf_tx).alloced) ∧
    ∃ mem1 b, set_bit ⟨⟨0⟩, 8⟩ (fun _ => 0) ((3 : Nat) : Int) = .ok mem1 ∧
      get_bit ⟨⟨0⟩, 8⟩ (fun _ => 0) ((17 : Nat) : Int) = .ok b ∧
      b = ((fun _ => 0 : Mem) (where_to ⟨⟨0⟩, 8⟩ 0 + 17 / 8)).val.testBit (17 % 8) ∧
      get_bit ⟨⟨0⟩, 8⟩ mem1 ((17 : Nat) : Int) = .ok (decide (17 = 3) || b) :=
  ⟨⟨by decide, by decide, by decide⟩,
    get_bit_after_set_bit ⟨⟨0⟩, 8⟩ (fun _ => 0) 3 17 (by decide) (by decide) (by decide)⟩

/-! ## Strings -/

/-- Claim C4. For every transaction within the invariant of the spec
(`alloced ≤ MAX_RINGBUF_MSG_SIZE`), every byte string `s` shorter than `2 ^ 32` and
every word-aligned offset `o` with `o + 4 + len(s) ≤ alloced`: `write_str` succeeds,
`read_str` right after it returns exactly `s`, and the 32-bit word at `o` holds
`len(s)`. -/
theorem read_str_after_write_str (wrtx : wrap_ringbuf_tx) (mem : Mem) (o : Nat)
    (s : List Byte) (hinv : wrtx.alloced ≤ MAX_RINGBUF_MSG_SIZE)
    (hlen : s.length < 2 ^ 32) (ha : o % 4 = 0)
    (hb : o + 4 + s.length ≤ wrtx.alloced) :
    ∃ mem1, write_str wrtx mem o s = .ok mem1 ∧ read_str wrtx mem1 o = .ok s ∧
      le_val (memcpy_from mem1 (where_to wrtx (to_size_t o)) 4) = s.length := by
  have hs : s.length ≤ 8096 := by
    simp only [MAX_RINGBUF_MSG_SIZE] at hinv
    omega
  clear hlen
  have hoa := aligned_ofNat o ha
  have hle : to_size_t (o : Int) ≤ o := by
    rw [to_size_t_ofNat]
    exact Nat.mod_le _ _
  have hlt : to_size_t (o : Int) < 2 ^ 64 := by
    rw [to_size_t_ofNat]
    exact Nat.mod_lt _ (by norm_num)
  simp only [write_str, read_str]
  generalize to_size_t (o : Int) = offs at *
  have hlen : s.length % 2 ^ 32 = s.length := Nat.mod_eq_of_lt (by omega)
  have hoa1 : (offs + 4) % 2 ^ 64 % 4 = 0 := by omega
  have hb0 : (4 + offs) % 2 ^ 64 ≤ wrtx.alloced := by
    have := Nat.mod_le (4 + offs) (2 ^ 64)
    omega
  have hb1 : (s.length + (offs + 4) % 2 ^ 64) % 2 ^ 64 ≤ wrtx.alloced := by
    have h1 := Nat.mod_le (s.length + (offs + 4) % 2 ^ 64) (2 ^ 64)
    have h2 := Nat.mod_le (offs + 4) (2 ^ 64)
    omega
  have hsep : ∀ i, i < 4 → (where_to wrtx offs + i < where_to wrtx ((offs + 4) % 2 ^ 64) ∨
      where_to wrtx ((offs + 4) % 2 ^ 64) + s.length ≤ where_to wrtx offs + i) := by
    intro i hi
    unfold where_to
    omega
  have hval : le_val (le_bytes 4 s.length) = s.length := by
    rw [le_val_le_bytes]
    exact Nat.mod_eq_of_lt (by omega)
  have hword : memcpy_from (memcpy_to (memcpy_to mem (where_to wrtx offs)
      (le_bytes 4 s.length) 4) (where_to wrtx ((offs + 4) % 2 ^ 64)) s s.length)
      (where_to wrtx offs) 4 = le_bytes 4 s.length := by
    rw [memcpy_from_congr _ (memcpy_to mem (where_to wrtx offs) (le_bytes 4 s.length) 4)
      _ 4 (fun i hi => memcpy_to_outside _ _ _ _ _ (hsep i hi))]
    exact memcpy_from_memcpy_to _ _ _ 4 (le_bytes_length 4 _)
  refine ⟨memcpy_to (memcpy_to mem (where_to wrtx offs) (le_bytes 4 s.length) 4)
    (where_to wrtx ((offs + 4) % 2 ^ 64)) s s.length, ?_, ?_, ?_⟩
  · simp only [hlen]
    rw [write_words_ok wrtx mem offs _ 4 hoa hb0 (by omega)]
    exact write_words_ok wrtx _ _ s s.length hoa1 hb1 hs
  · rw [read_words_ok wrtx _ offs 4 hoa hb0 (by omega)]
    simp only [hword, hval]
    rw [read_words_ok wrtx _ _ s.length hoa1 hb1 hs, memcpy_from_memcpy_to _ _ _ _ rfl]
  · rw [hword, hval]

/-- Claim C4 at a concrete input: a string of two bytes at offset 4 of a 12-byte
slot. -/
theorem read_str_after_write_str_witness :
    ((⟨⟨2⟩, 12⟩ : wrap_ringbuf_tx).alloced ≤ MAX_RINGBUF_MSG_SIZE ∧
      ([104, 105] : List Byte).length < 2 ^ 32 ∧ 4 % 4 = 0 ∧
      4 + 4 + ([104, 105] : List Byte).length
        ≤ (⟨⟨2⟩, 12⟩ : wrap_ringbuf_tx).alloced) ∧
    ∃ mem1, write_str ⟨⟨2⟩, 12⟩ (fun _ => 0) ((4 : Nat) : Int) [104, 105] = .ok mem1 ∧
      read_str ⟨⟨2⟩, 12⟩ mem1 ((4 : Nat) : Int) = .ok [104, 105] ∧
      le_val (memcpy_from mem1 (where_to ⟨⟨2⟩, 12⟩ (to_size_t ((4 : Nat) : Int))) 4)
        = ([104, 105] : List Byte).length :=
  ⟨⟨by decide, by decide, by decide, by decide⟩,
    read_str_after_write_str ⟨⟨2⟩, 12⟩ (fun _ => 0) 4 [104, 105] (by decide) (by decide)
      (by decide) (by decide)⟩

/-! ## Tagged IP values -/

/-- Claim C5. For a tagged IP value `x`, v4 (tag 0, a 32-bit address) or v6 (tag 1, a
128-bit address), and an offset at which `write_ip` passes its checks and returns:
`read_ip` right afterwards returns `x`, with the same tag and the same address. -/
theorem read_ip_after_write_ip (wrtx : wrap_ringbuf_tx) (mem mem1 : Mem) (off_ : Int)
    (x : ip_block) (hx : (∃ a, x = ip_v4 a) ∨ (∃ a, x = ip_v6 a))
    (hw : write_ip wrtx mem off_ x = .ok mem1) :
    read_ip wrtx mem1 off_ = .ok x := by
  rcases hx with ⟨a, rfl⟩ | ⟨a, rfl⟩
  · rw [ip_v4, write_ip_tag0] at hw
    cases hw1 : write_words wrtx mem (to_size_t off_) (le_bytes 4 0) 4 with
    | error e => rw [hw1] at hw; cases hw
    | ok m =>
      rw [hw1] at hw
      obtain ⟨a1, -, -, -⟩ := write_words_inv hw1
      obtain ⟨a2, -, -, -⟩ := write_words_inv hw
      obtain ⟨r1, r2⟩ := read_after_two_writes 4 wrtx mem m mem1 _ 0 _ _
        (le_bytes_length 4 _) (next_offset_separated wrtx _ 4 (by omega) a1 a2) hw1 hw
      rw [read_ip_tag0 wrtx mem1 off_ _ r1 le_val_tag0, r2]
      rfl
  · rw [ip_v6, write_ip_tag1] at hw
    cases hw1 : write_words wrtx mem (to_size_t off_) (le_bytes 4 1) 4 with
    | error e => rw [hw1] at hw; cases hw
    | ok m =>
      rw [hw1] at hw
      obtain ⟨a1, -, -, -⟩ := write_words_inv hw1
      obtain ⟨a2, -, -, -⟩ := write_words_inv hw
      obtain ⟨r1, r2⟩ := read_after_two_writes 16 wrtx mem m mem1 _ 1 _ _
        (le_bytes_length 16 _) (next_offset_separated wrtx _ 16 (by omega) a1 a2) hw1 hw
      rw [read_ip_tag1 wrtx mem1 off_ _ r1 le_val_tag1, r2]
      rfl

/-- Claim C5 at a concrete input: a v4 address at offset 0 of an 8-byte slot. -/
theorem read_ip_after_write_ip_witness :
    write_ip ⟨⟨1⟩, 8⟩ (fun _ => 0) 0 (ip_v4 3232235777)
        = .ok (memcpy_to (memcpy_to (fun _ => 0) 4 (le_bytes 4 0) 4) 8
            (le_bytes 4 3232235777) 4) ∧
      read_ip ⟨⟨1⟩, 8⟩ (memcpy_to (memcpy_to (fun _ => 0) 4 (le_bytes 4 0) 4) 8
          (le_bytes 4 3232235777) 4) 0 = .ok (ip_v4 3232235777) :=
  ⟨rfl, read_ip_after_write_ip ⟨⟨1⟩, 8⟩ (fun _ => 0) _ 0 (ip_v4 3232235777)
    (Or.inl ⟨3232235777, rfl⟩) rfl⟩

/-! ## Sizes of reservations -/

/-- Claim C6 fails as stated: the size is converted to a 32-bit `int` before
`check_size`. The size `2 ^ 32` is greater than 8096, and both the reservation and
the enqueue accept it, as size 0. -/
theorem oversized_size_accepted :
    (8096 : Int) < 4294967296 ∧
    wrap_ringbuf_enqueue_alloc enqueue_alloc_with_room () 4294967296
        = (.ok ⟨⟨1⟩, 0⟩, ()) ∧
      wrap_ringbuf_enqueue enqueue_with_room () [] 4294967296 () () = (.ok (), ()) :=
  ⟨by decide, rfl, rfl⟩

/-- Claim C6, amended. For every size that is not a multiple of 4, or that is greater
than 8096 and below `2 ^ 31`, the reservation and the enqueue fail with an
invalid-argument error and leave the ring as it was, whatever the core does. -/
theorem invalid_size_rejected {ρ F : Type}
    (core_alloc : ρ → Nat → ringbuf_error × ringbuf_tx × ρ)
    (core_enqueue : ρ → List Byte → Nat → F → F → ringbuf_error × ρ)
    (rb : ρ) (bytes_ : List Byte) (size_ : Int) (tmin_ tmax_ : F)
    (h : size_ % 4 ≠ 0 ∨ (8096 < size_ ∧ size_ < 2 ^ 31)) :
    wrap_ringbuf_enqueue_alloc core_alloc rb size_ = (.error .Invalid_argument, rb) ∧
      wrap_ringbuf_enqueue core_enqueue rb bytes_ size_ tmin_ tmax_
        = (.error .Invalid_argument, rb) := by
  have hc := check_size_invalid size_ h
  constructor
  · simp only [wrap_ringbuf_enqueue_alloc, hc]
  · simp only [wrap_ringbuf_enqueue, hc]

/-- Claim C6, amended, at a concrete input: the size 8100. -/
theorem invalid_size_rejected_witness :
    ((8100 : Int) % 4 ≠ 0 ∨ ((8096 : Int) < 8100 ∧ (8100 : Int) < 2 ^ 31)) ∧
    (wrap_ringbuf_enqueue_alloc enqueue_alloc_with_room () 8100
        = (.error .Invalid_argument, ()) ∧
      wrap_ringbuf_enqueue enqueue_with_room () [1, 2, 3, 4] 8100 () ()
        = (.error .Invalid_argument, ())) :=
  ⟨by decide, invalid_size_rejected enqueue_alloc_with_room enqueue_with_room () [1, 2, 3, 4]
    8100 () () (by decide)⟩

/-- For every size from 0 to `2 ^ 31 - 1`, a transaction returned by the reservation
has `alloced` equal to the size, a multiple of 4 and at most 8096. -/
theorem enqueue_alloc_alloced {ρ : Type}
    (core_alloc : ρ → Nat → ringbuf_error × ringbuf_tx × ρ) (rb rb1 : ρ) (size_ : Int)
    (wrtx : wrap_ringbuf_tx) (h0 : 0 ≤ size_) (h1 : size_ < 2 ^ 31)
    (h : wrap_ringbuf_enqueue_alloc core_alloc rb size_ = (.ok wrtx, rb1)) :
    (wrtx.alloced : Int) = size_ ∧ wrtx.alloced % 4 = 0 ∧ wrtx.alloced ≤ 8096 := by
  have e : to_int size_ = size_ := by
    unfold to_int
    omega
  unfold wrap_ringbuf_enqueue_alloc at h
  simp only [e] at h
  cases hc : check_size size_ with
  | error x => rw [hc] at h; cases h
  | ok u =>
    rw [hc] at h
    unfold check_size at hc
    rw [and_three_eq_mod] at hc
    split_ifs at hc with c1 c2
    simp only [MAX_RINGBUF_MSG_SIZE] at c2
    have ha : wrtx.alloced = to_size_t size_ := by
      rcases hcore : core_alloc rb (nb_words_of_size size_) with ⟨err, tx, rb2⟩
      rw [hcore] at h
      cases err
      · simp only [Prod.mk.injEq, Except.ok.injEq] at h
        rw [← h.1]
      · simp at h
      · simp at h
    rw [ha]
    unfold to_size_t to_unsigned at *
    omega

/-- Claim C7, at the input where the code departs from it. `check_size` has no lower
bound: the size `-4` is a multiple of 4 and not greater than 8096, so no argument
error is raised, the core is asked for `2 ^ 32 - 1` words, and when it finds room
the transaction returned has `alloced = (size_t)-4 = 2 ^ 64 - 4`, which is neither
the size nor at most 8096. -/
theorem enqueue_alloc_negative_size :
    check_size (to_int (-4)) = .ok () ∧
    nb_words_of_size (to_int (-4)) = 4294967295 ∧
    wrap_ringbuf_enqueue_alloc enqueue_alloc_with_room () (-4)
      = (.ok ⟨⟨1⟩, 18446744073709551612⟩, ()) ∧
    ((18446744073709551612 : Nat) : Int) ≠ -4 ∧
    ¬ (18446744073709551612 ≤ MAX_RINGBUF_MSG_SIZE) :=
  ⟨rfl, by decide, rfl, by decide, by decide⟩

/-! ## Streaming reads -/

/-- Claim C8, at the input where the code departs from it. When the core reports an
invalid buffer (return code `-2`), `wrap_ringbuf_read_next` returns a transaction,
with `alloced` equal to `-2` converted to `size_t`, that is `2 ^ 64 - 2`, where
`wrap_ringbuf_read_first` raises a failure. -/
theorem read_next_invalid_buffer :
    wrap_ringbuf_read_next read_next_invalid () ⟨⟨5⟩, 16⟩
        = (.ok ⟨⟨5⟩, 18446744073709551614⟩, ⟨⟨5⟩, 18446744073709551614⟩, ()) ∧
      wrap_ringbuf_read_first read_first_invalid () = (.error .Failure, ()) :=
  ⟨rfl, rfl⟩

/-! ## Reading a tagged IP value -/

/-- Claim C9 fails as stated: with 4 bytes allocated the tag word at offset 0 is in
bounds and holds 0, and `read_ip` fails all the same, the address being out of
bounds. -/
theorem read_ip_fails_with_valid_tag :
    (0 % 4 = 0 ∧ 0 + 4 ≤ (⟨⟨0⟩, 4⟩ : wrap_ringbuf_tx).alloced) ∧
    le_val (memcpy_from (fun _ => 0) (where_to ⟨⟨0⟩, 4⟩ 0) 4) = 0 ∧
    read_ip ⟨⟨0⟩, 4⟩ (fun _ => 0) 0 = .error .Assert_failure :=
  ⟨⟨by decide, by decide⟩, by decide, rfl⟩

/-- Claim C9, amended. For a word-aligned offset `o` with the tag word in bounds
(and `o + 4` an OCaml integer): `read_ip` fails if and only if the tag word is
neither 0 nor 1, or it is 0 and `o + 8` exceeds `alloced`, or it is 1 and `o + 20`
exceeds `alloced`. With tag 0 and the address in bounds it returns a v4 value built
from the 32-bit word at `o + 4`, with tag 1 a v6 value built from the 128 bits at
`o + 4`. -/
theorem read_ip_spec (wrtx : wrap_ringbuf_tx) (mem : Mem) (o : Nat) (ha : o % 4 = 0)
    (hb : o + 4 ≤ wrtx.alloced) (ho : o + 4 < 2 ^ 62) :
    (read_ip wrtx mem o = .error .Assert_failure ↔
      (le_val (memcpy_from mem (where_to wrtx o) 4) ≠ 0 ∧
          le_val (memcpy_from mem (where_to wrtx o) 4) ≠ 1) ∨
        (le_val (memcpy_from mem (where_to wrtx o) 4) = 0 ∧ wrtx.alloced < o + 8) ∨
        (le_val (memcpy_from mem (where_to wrtx o) 4) = 1 ∧ wrtx.alloced < o + 20)) ∧
    (le_val (memcpy_from mem (where_to wrtx o) 4) = 0 → o + 8 ≤ wrtx.alloced →
      read_ip wrtx mem o
        = .ok ⟨0, ⟨.uint32_ops, memcpy_from mem (where_to wrtx (o + 4)) 4⟩⟩) ∧
    (le_val (memcpy_from mem (where_to wrtx o) 4) = 1 → o + 20 ≤ wrtx.alloced →
      read_ip wrtx mem o
        = .ok ⟨1, ⟨.uint128_ops, memcpy_from mem (where_to wrtx (o + 4)) 16⟩⟩) := by
  have e0 : to_size_t (o : Int) = o := to_size_t_small o (by omega)
  have hr : read_words wrtx mem (to_size_t (o : Int)) 4
      = .ok (memcpy_from mem (where_to wrtx o) 4) := by
    rw [e0]
    exact read_words_ok wrtx mem o 4 ha (by omega) (by omega)
  have e1 := next_offset_small o ho
  have h4 : ∀ n, n ≤ 16 → o + 4 + n ≤ wrtx.alloced →
      read_words wrtx mem (o + 4) n = .ok (memcpy_from mem (where_to wrtx (o + 4)) n) :=
    fun n hn h => read_words_ok wrtx mem (o + 4) n (by omega) (by omega) (by omega)
  have h5 : ∀ n, n ≤ 16 → wrtx.alloced < o + 4 + n →
      read_words wrtx mem (o + 4) n = .error .Assert_failure :=
    fun n hn h => read_words_err wrtx mem (o + 4) n (by omega)
  by_cases ht0 : le_val (memcpy_from mem (where_to wrtx o) 4) = 0
  · have hip := read_ip_tag0 wrtx mem o _ hr ht0
    rw [e1] at hip
    by_cases hin : o + 8 ≤ wrtx.alloced
    · rw [h4 4 (by omega) (by omega)] at hip
      rw [hip]
      refine ⟨?_, fun _ _ => rfl, fun h => ?_⟩
      · constructor
        · intro h
          cases h
        · rintro (⟨h, -⟩ | ⟨-, h⟩ | ⟨h, -⟩)
          · exact absurd ht0 h
          · omega
          · omega
      · omega
    · rw [h5 4 (by omega) (by omega)] at hip
      rw [hip]
      refine ⟨?_, fun _ h => absurd h hin, fun h => ?_⟩
      · constructor
        · intro _
          exact Or.inr (Or.inl ⟨ht0, by omega⟩)
        · intro _
          rfl
      · omega
  · by_cases ht1 : le_val (memcpy_from mem (where_to wrtx o) 4) = 1
    · have hip := read_ip_tag1 wrtx mem o _ hr ht1
      rw [e1] at hip
      by_cases hin : o + 20 ≤ wrtx.alloced
      · rw [h4 16 (by omega) (by omega)] at hip
        rw [hip]
        refine ⟨?_, fun h => absurd h ht0, fun _ _ => rfl⟩
        constructor
        · intro h
          cases h
        · rintro (⟨-, h⟩ | ⟨h, -⟩ | ⟨-, h⟩)
          · exact absurd ht1 h
          · exact absurd h ht0
          · omega
      · rw [h5 16 (by omega) (by omega)] at hip
        rw [hip]
        refine ⟨?_, fun h => absurd h ht0, fun _ h => absurd h hin⟩
        constructor
        · intro _
          exact Or.inr (Or.inr ⟨ht1, by omega⟩)
        · intro _
          rfl
    · rw [read_ip_bad_tag wrtx mem o _ hr ht0 ht1]
      refine ⟨?_, fun h => absurd h ht0, fun h => absurd h ht1⟩
      constructor
      · intro _
        exact Or.inl ⟨ht0, ht1⟩
      · intro _
        rfl

/-- Claim C9, amended, at a concrete input: tag 0 and the address 7. -/
theorem read_ip_spec_witness :
    (0 % 4 = 0 ∧ 0 + 4 ≤ (⟨⟨0⟩, 8⟩ : wrap_ringbuf_tx).alloced ∧ 0 + 4 < 2 ^ 62) ∧
    read_ip ⟨⟨0⟩, 8⟩ (fun a => if a = 4 then 7 else 0) ((0 : Nat) : Int)
      = .ok ⟨0, ⟨.uint32_ops, [7, 0, 0, 0]⟩⟩ :=
  ⟨⟨by decide, by decide, by decide⟩,
    (read_ip_spec ⟨⟨0⟩, 8⟩ (fun a => if a = 4 then 7 else 0) 0 (by decide) (by decide)
      (by decide)).2.1 (by decide) (by decide)⟩

/-! ## The 48-bit width -/

/-- Claim C10 fails as stated: `write_boxed_48` copies `48 / 8 = 6` bytes. Written
over bytes that all hold 255, the value 1 leaves the last two of the 8 bytes at
255, and the 8 bytes decode to `1 + 65535 * 2 ^ 48`, not to 1. -/
theorem write_boxed_48_keeps_high_bytes :
    (0 % 4 = 0 ∧ 0 + 8 ≤ (⟨⟨0⟩, 8⟩ : wrap_ringbuf_tx).alloced ∧ 1 < 2 ^ 48) ∧
    ∃ mem1, write_boxed_48 ⟨⟨0⟩, 8⟩ (fun _ => 255) 0 (box .uint64_ops 8 1) = .ok mem1 ∧
      memcpy_from mem1 (where_to ⟨⟨0⟩, 8⟩ 0) 8 = [1, 0, 0, 0, 0, 0, 255, 255] ∧
      le_val (memcpy_from mem1 (where_to ⟨⟨0⟩, 8⟩ 0) 8) = 18446462598732840961 :=
  ⟨⟨by decide, by decide, by decide⟩, _, rfl, by decide, by decide⟩

/-- Claim C10, amended. For `v < 2 ^ 48`, boxed as a 64-bit little-endian integer,
and a word-aligned offset `o` with `o + 6 ≤ alloced`: `write_boxed_48` stores the
six low bytes of `v` in the bytes `[o, o+6)` of the slot, which then decode to `v`,
and changes no other byte, in particular not `o + 6` and `o + 7`; `read_uint48`
then returns a block of six bytes that decodes to `v`, the low 48 bits of the 64-bit
integer held by the 8 bytes at `o`. -/
theorem write_boxed_48_six_bytes (wrtx : wrap_ringbuf_tx) (mem : Mem) (o v : Nat)
    (ops : custom_operations) (ha : o % 4 = 0) (hb : o + 6 ≤ wrtx.alloced)
    (ho : o < 2 ^ 62) (hv : v < 2 ^ 48) :
    ∃ mem1, write_boxed_48 wrtx mem o (box ops 8 v) = .ok mem1 ∧
      le_val (memcpy_from mem1 (where_to wrtx o) 6) = v ∧
      (∀ a, a < where_to wrtx o ∨ where_to wrtx o + 6 ≤ a → mem1 a = mem a) ∧
      ∃ c, read_uint48 wrtx mem1 o = .ok c ∧ c.ops = .uint32_ops ∧
        (le_val c.data : Int) = v ∧
        le_val c.data = le_val (memcpy_from mem1 (where_to wrtx o) 8) % 2 ^ 48 := by
  have e0 : to_size_t (o : Int) = o := to_size_t_small o (by omega)
  have e6 : (48 : Nat) / 8 = 6 := by norm_num
  have hbox : (box ops 8 (v : Int)).data = le_bytes 8 v := by
    have e : (2 : Int) ^ (8 * 8) = 18446744073709551616 := by norm_num
    have hm : ((v : Int) % 18446744073709551616).toNat = v := by omega
    simp only [box]
    rw [e, hm]
  have hw : write_boxed_48 wrtx mem o (box ops 8 v)
      = .ok (memcpy_to mem (where_to wrtx o) (le_bytes 8 v) 6) := by
    rw [show write_boxed_48 = write_boxed 48 from rfl]
    unfold write_boxed
    rw [e0, e6, hbox]
    exact write_words_ok wrtx mem o _ 6 ha (by omega) (by omega)
  have hsix : memcpy_from (memcpy_to mem (where_to wrtx o) (le_bytes 8 v) 6)
      (where_to wrtx o) 6 = le_bytes 6 v := by
    rw [memcpy_from_six]
    rw [memcpy_to_inside _ _ _ 6 0 (by omega), memcpy_to_inside _ _ _ 6 1 (by omega),
      memcpy_to_inside _ _ _ 6 2 (by omega), memcpy_to_inside _ _ _ 6 3 (by omega),
      memcpy_to_inside _ _ _ 6 4 (by omega), memcpy_to_inside _ _ _ 6 5 (by omega)]
    rfl
  have hval : le_val (le_bytes 6 v) = v := by
    rw [le_val_le_bytes]
    exact Nat.mod_eq_of_lt (by omega)
  refine ⟨_, hw, ?_, ?_, ?_⟩
  · rw [hsix, hval]
  · intro a h
    exact memcpy_to_outside _ _ _ _ _ h
  · refine ⟨⟨.uint32_ops, le_bytes 6 v⟩, ?_, rfl, ?_, ?_⟩
    · rw [show read_uint48 = read_boxed 48 .uint32_ops from rfl, read_boxed_eq, e0, e6,
        read_words_ok wrtx _ o 6 ha (by omega) (by omega), hsix]
      rfl
    · show (le_val (le_bytes 6 v) : Int) = v
      rw [hval]
    · show le_val (le_bytes 6 v) = _
      rw [← le_val_six_of_eight, hsix]

/-- Claim C10, amended, at a concrete input: the value 5 written over bytes that
hold 255. -/
theorem write_boxed_48_six_bytes_witness :
    (0 % 4 = 0 ∧ 0 + 6 ≤ (⟨⟨0⟩, 8⟩ : wrap_ringbuf_tx).alloced ∧ 0 < 2 ^ 62 ∧
      5 < 2 ^ 48) ∧
    ∃ mem1, write_boxed_48 ⟨⟨0⟩, 8⟩ (fun _ => 255) ((0 : Nat) : Int)
        (box .uint64_ops 8 ((5 : Nat) : Int)) = .ok mem1 ∧
      le_val (memcpy_from mem1 (where_to ⟨⟨0⟩, 8⟩ 0) 6) = 5 ∧
      (∀ a, a < where_to ⟨⟨0⟩, 8⟩ 0 ∨ where_to ⟨⟨0⟩, 8⟩ 0 + 6 ≤ a →
        mem1 a = (fun _ => 255) a) ∧
      ∃ c, read_uint48 ⟨⟨0⟩, 8⟩ mem1 ((0 : Nat) : Int) = .ok c ∧ c.ops = .uint32_ops ∧
        (le_val c.data : Int) = ((5 : Nat) : Int) ∧
        le_val c.data = le_val (memcpy_from mem1 (where_to ⟨⟨0⟩, 8⟩ 0) 8) % 2 ^ 48 :=
  ⟨⟨by decide, by decide, by decide, by decide⟩,
    write_boxed_48_six_bytes ⟨⟨0⟩, 8⟩ (fun _ => 255) 0 5 .uint64_ops (by decide)
      (by decide) (by decide) (by decide)⟩

/-! ## Lemmas on alignment and frames -/

theorem misaligned_ofInt (off_ : Int) (h : off_ % 4 ≠ 0) : to_size_t off_ &&& 3 ≠ 0 := by
  rw [and_three_eq_mod]
  unfold to_size_t
  omega

theorem write_words_misaligned (wrtx : wrap_ringbuf_tx) (mem : Mem) (offs : Nat)
    (src : List Byte) (size : Nat) (h : offs &&& 3 ≠ 0) :
    write_words wrtx mem offs src size = .error .Assert_failure := by
  unfold write_words
  rw [if_pos h]

theorem read_words_misaligned (wrtx : wrap_ringbuf_tx) (mem : Mem) (offs size : Nat)
    (h : offs &&& 3 ≠ 0) : read_words wrtx mem offs size = .error .Assert_failure := by
  unfold read_words
  rw [if_pos h]

theorem write_word_inv {wrtx : wrap_ringbuf_tx} {mem : Mem} {off_ v_ : Int} {m : Mem}
    (h : write_word wrtx mem off_ v_ = .ok m) :
    to_size_t off_ % 4 = 0 ∧ v_ ≤ UINT32_MAX ∧
      m = memcpy_to mem (where_to wrtx (to_size_t off_)) (le_bytes 4 (to_unsigned v_)) 4 := by
  unfold write_word at h
  simp only [] at h
  split_ifs at h with h1 h2
  simp only [not_not, and_three_eq_mod] at h1 h2
  injection h with h
  exact ⟨h1, h2, h.symm⟩

theorem typed_write_run_inv {w : typed_write} {wrtx : wrap_ringbuf_tx} {mem : Mem}
    {off_ : Int} {m : Mem} (h : w.run wrtx mem off_ = .ok m) :
    to_size_t off_ % 4 = 0 ∧
      ∃ src, m = memcpy_to mem (where_to wrtx (to_size_t off_)) src w.width := by
  cases w with
  | boxed bits v =>
    obtain ⟨a, -, -, e⟩ := write_words_inv (show write_words wrtx mem (to_size_t off_)
      v.data (bits / 8) = .ok m from h)
    exact ⟨a, _, e⟩
  | unboxed bits v =>
    obtain ⟨a, -, -, e⟩ := write_words_inv (show write_words wrtx mem (to_size_t off_)
      (le_bytes (bits / 8) (v % 2 ^ bits).toNat) (bits / 8) = .ok m from h)
    exact ⟨a, _, e⟩
  | float v =>
    obtain ⟨a, -, -, e⟩ := write_words_inv (show write_words wrtx mem (to_size_t off_)
      v 8 = .ok m from h)
    exact ⟨a, _, e⟩
  | word v =>
    obtain ⟨a, -, e⟩ := write_word_inv (show write_word wrtx mem off_ v = .ok m from h)
    exact ⟨a, _, e⟩

theorem read_words_congr (wrtx : wrap_ringbuf_tx) (m1 m2 : Mem) (offs size : Nat)
    (h : ∀ i, i < size → m1 (where_to wrtx offs + i) = m2 (where_to wrtx offs + i)) :
    read_words wrtx m1 offs size = read_words wrtx m2 offs size := by
  unfold read_words
  rw [memcpy_from_congr m1 m2 _ size h]

theorem read_words_frame (wrtx : wrap_ringbuf_tx) (mem : Mem) (s1 s2 w n : Nat)
    (src : List Byte) (ha : s1 % 4 = 0) (hd : s2 + n ≤ s1 ∨ s1 + w ≤ s2) :
    read_words wrtx (memcpy_to mem (where_to wrtx s1) src w) s2 n
      = read_words wrtx mem s2 n := by
  by_cases h2 : s2 % 4 = 0
  · apply read_words_congr
    intro i hi
    apply memcpy_to_outside
    rw [where_to_aligned wrtx s1 ha, where_to_aligned wrtx s2 h2]
    omega
  · have hm : s2 &&& 3 ≠ 0 := by rw [and_three_eq_mod]; exact h2
    rw [read_words_misaligned _ _ _ _ hm, read_words_misaligned _ _ _ _ hm]

theorem read_unboxed_eq (signed : Bool) (bits : Nat) (wrtx : wrap_ringbuf_tx) (mem : Mem)
    (off_ : Int) :
    read_unboxed signed bits wrtx mem off_ =
      (read_words wrtx mem (to_size_t off_) (bits / 8)).map
        (fun dst => Val_long (if signed then le_sval dst else (le_val dst : Int))) := by
  unfold read_unboxed
  cases read_words wrtx mem (to_size_t off_) (bits / 8) <;> rfl

theorem read_word_eq (wrtx : wrap_ringbuf_tx) (mem : Mem) (off_ : Int) :
    read_word wrtx mem off_ =
      (read_words wrtx mem (to_size_t off_) 4).map (fun dst => Val_long (le_val dst : Int)) := by
  unfold read_word
  cases read_words wrtx mem (to_size_t off_) 4 <;> rfl

/-! ## Lemmas on the bounds of the tagged IP accesses -/

theorem write_words_err (wrtx : wrap_ringbuf_tx) (mem : Mem) (offs : Nat)
    (src : List Byte) (size : Nat) (hb : ¬ ((size + offs) % 2 ^ 64 ≤ wrtx.alloced)) :
    write_words wrtx mem offs src size = .error .Assert_failure := by
  unfold write_words
  by_cases h : offs &&& 3 ≠ 0
  · rw [if_pos h]
  · rw [if_neg h, if_pos hb]

theorem write_words_ok_iff (wrtx : wrap_ringbuf_tx) (mem : Mem) (offs : Nat)
    (src : List Byte) (size : Nat) (ha : offs % 4 = 0) (hs : size ≤ 8096)
    (hlt : size + offs < 2 ^ 64) :
    (∃ m, write_words wrtx mem offs src size = .ok m) ↔ size + offs ≤ wrtx.alloced := by
  have e : (size + offs) % 2 ^ 64 = size + offs := Nat.mod_eq_of_lt hlt
  constructor
  · rintro ⟨m, hm⟩
    obtain ⟨-, b, -, -⟩ := write_words_inv hm
    omega
  · intro h
    exact ⟨_, write_words_ok wrtx mem offs src size ha (by omega) hs⟩

theorem read_words_ok_iff (wrtx : wrap_ringbuf_tx) (mem : Mem) (offs size : Nat)
    (ha : offs % 4 = 0) (hs : size ≤ 8096) (hlt : size + offs < 2 ^ 64) :
    (∃ d, read_words wrtx mem offs size = .ok d) ↔ size + offs ≤ wrtx.alloced := by
  have e : (size + offs) % 2 ^ 64 = size + offs := Nat.mod_eq_of_lt hlt
  constructor
  · rintro ⟨d, hd⟩
    by_contra hc
    rw [read_words_err wrtx mem offs size (by omega)] at hd
    cases hd
  · intro h
    exact ⟨_, read_words_ok wrtx mem offs size ha (by omega) hs⟩

theorem write_ip_ok_iff (wrtx : wrap_ringbuf_tx) (mem : Mem) (o n tag : Nat) (c : custom)
    (ha : o % 4 = 0) (ho : o + 4 < 2 ^ 62) (hn : n ≤ 16)
    (hw : write_ip wrtx mem o ⟨tag, c⟩ =
      match write_words wrtx mem (to_size_t o) (le_bytes 4 tag) 4 with
      | .error e => .error e
      | .ok m => write_words wrtx m
          (to_size_t (Val_long (((to_size_t o + 4) % 2 ^ 64 : Nat) : Int))) c.data n) :
    (∃ m, write_ip wrtx mem o ⟨tag, c⟩ = .ok m) ↔ o + 4 + n ≤ wrtx.alloced ∧
      o + 4 ≤ wrtx.alloced := by
  rw [hw, next_offset_small o ho, to_size_t_small o (by omega)]
  constructor
  · rintro ⟨m, hm⟩
    cases h1 : write_words wrtx mem o (le_bytes 4 tag) 4 with
    | error e => rw [h1] at hm; cases hm
    | ok m1 =>
      rw [h1] at hm
      have b1 := (write_words_ok_iff wrtx mem o _ 4 ha (by omega) (by omega)).mp ⟨_, h1⟩
      have b2 := (write_words_ok_iff wrtx m1 (o + 4) _ n (by omega) (by omega)
        (by omega)).mp ⟨_, hm⟩
      omega
  · rintro ⟨h2, h1⟩
    rw [write_words_ok wrtx mem o _ 4 ha (by omega) (by omega)]
    exact ⟨_, write_words_ok wrtx _ (o + 4) _ n (by omega) (by omega) (by omega)⟩

theorem read_ip_ok_iff (wrtx : wrap_ringbuf_tx) (mem : Mem) (o n : Nat) (ha : o % 4 = 0)
    (ho : o + 4 < 2 ^ 62) (hn : n ≤ 16) (f : List Byte → ip_block)
    (hr : ∀ dst, read_words wrtx mem (to_size_t o) 4 = .ok dst →
      read_ip wrtx mem o =
        (read_words wrtx mem
          (to_size_t (Val_long (((to_size_t o + 4) % 2 ^ 64 : Nat) : Int))) n).map f) :
    (∃ x, read_ip wrtx mem o = .ok x) ↔ o + 4 + n ≤ wrtx.alloced ∧
      o + 4 ≤ wrtx.alloced := by
  have e0 := to_size_t_small o (by omega)
  by_cases h1 : o + 4 ≤ wrtx.alloced
  · have hd := read_words_ok wrtx mem o 4 ha (by omega) (by omega)
    rw [← e0] at hd
    rw [hr _ hd, next_offset_small o ho]
    constructor
    · rintro ⟨x, hx⟩
      cases h2 : read_words wrtx mem (o + 4) n with
      | error e => rw [h2] at hx; cases hx
      | ok d =>
        have := (read_words_ok_iff wrtx mem (o + 4) n (by omega) (by omega)
          (by omega)).mp ⟨_, h2⟩
        omega
    · rintro ⟨h2, -⟩
      rw [read_words_ok wrtx mem (o + 4) n (by omega) (by omega) (by omega)]
      exact ⟨_, rfl⟩
  · have hd := read_words_err wrtx mem o 4 (by omega)
    constructor
    · rintro ⟨x, hx⟩
      unfold read_ip at hx
      simp only [] at hx
      rw [e0, hd] at hx
      cases hx
    · rintro ⟨-, h⟩
      exact absurd h h1

/-! ## Lemmas on zeroed memory -/

theorem le_val_replicate_zero (k : Nat) : le_val (List.replicate k (0 : Byte)) = 0 := by
  induction k with
  | zero => rfl
  | succ k ih => simp [List.replicate_succ, le_val, ih]

theorem le_sval_replicate_zero (k : Nat) : le_sval (List.replicate k (0 : Byte)) = 0 := by
  unfold le_sval
  rw [le_val_replicate_zero, if_pos (by positivity)]
  rfl

theorem toInt_replicate_zero (ops : custom_operations) (k : Nat) :
    (⟨ops, List.replicate k 0⟩ : custom).toInt = 0 := by
  cases ops
  all_goals first
    | exact congrArg Nat.cast (le_val_replicate_zero k)
    | exact le_sval_replicate_zero k

theorem memcpy_from_zero (mem : Mem) (addr k : Nat)
    (h : ∀ i, i < k → mem (addr + i) = 0) :
    memcpy_from mem addr k = List.replicate k 0 := by
  apply List.ext_getElem
  · simp [memcpy_from]
  · intro i h1 h2
    have hi : i < k := by simpa [memcpy_from] using h1
    simp only [memcpy_from, List.getElem_map, List.getElem_range, List.getElem_replicate]
    exact h i hi

theorem zero_bytes_ok (wrtx : wrap_ringbuf_tx) (mem : Mem) (o n : Nat) (ha : o % 4 = 0)
    (hn : n < 2 ^ 31) (ho : o < 2 ^ 62) :
    zero_bytes wrtx mem o n = .ok (memset_zero mem (where_to wrtx o) n) := by
  have e0 := to_size_t_small o (by omega)
  have e1 : to_size_t (to_int (n : Int)) = n := by
    unfold to_size_t to_int
    omega
  unfold zero_bytes
  simp only []
  rw [e0, e1, if_neg (by rw [and_three_eq_mod]; omega)]

/-! ## Lemmas on the numeric parser -/

theorem getD_nul_ne_zero_iff (s : List Byte) (k : Nat) (hk : k ≤ strlen s) :
    ((s ++ [0]).getD k 0).val ≠ 0 ↔ k < strlen s := by
  induction s generalizing k with
  | nil =>
    have h0 : k = 0 := by simpa [strlen] using hk
    subst h0
    simp [strlen]
  | cons b bs ih =>
    by_cases hb : b = 0
    · have hl : strlen (b :: bs) = 0 := by simp [strlen, hb]
      rw [hl] at hk ⊢
      have h0 : k = 0 := by omega
      subst h0
      simp [hb]
    · have hl : strlen (b :: bs) = strlen bs + 1 := by simp [strlen, hb]
      rw [hl] at hk ⊢
      cases k with
      | zero =>
        have hv : b.val ≠ 0 := fun h => hb (Fin.ext h)
        simp [hv]
      | succ k =>
        have := ih k (by omega)
        simp only [List.cons_append, List.getD_cons_succ]
        rw [this]
        omega

/-! ## Lemmas on the modelled ring -/

theorem Parses.le {N : Nat} {d : Mem} {i j : Nat} {q : List (List Byte)}
    (h : Parses N d i q j) : i ≤ j := by
  induction h with
  | nil i => exact Nat.le_refl i
  | cons i s n p q j hs hn hn31 hfit hp rest ih => omega

theorem Parses.lt_of_cons {N : Nat} {d : Mem} {i j : Nat} {p : List Byte}
    {q : List (List Byte)} (h : Parses N d i (p :: q) j) : i < j := by
  cases h with
  | cons i s n p q j hs hn hn31 hfit hp rest =>
    have := rest.le
    omega

theorem Parses.eq_nil {N : Nat} {d : Mem} {i : Nat} {q : List (List Byte)}
    (h : Parses N d i q i) : q = [] := by
  cases q with
  | nil => rfl
  | cons p q =>
    have := h.lt_of_cons
    omega

/-- Claim C11. Every codec operation that takes a byte offset fails on an assertion
when the offset is not a multiple of 4 (`offset & 3 != 0`): the typed writes and reads
of every width, `write_word`, `read_word`, `write_str`, `read_str`, `write_ip`,
`read_ip`, `write_float`, `read_float` and `zero_bytes`. The call ends there: no
memory is returned, so no byte of the slot is read or written. -/
theorem misaligned_offset_rejected (wrtx : wrap_ringbuf_tx) (mem : Mem) (off_ : Int)
    (h : off_ % 4 ≠ 0) :
    (∀ bits v, write_boxed bits wrtx mem off_ v = .error .Assert_failure) ∧
    (∀ bits v, write_unboxed bits wrtx mem off_ v = .error .Assert_failure) ∧
    (∀ bits ops, read_boxed bits ops wrtx mem off_ = .error .Assert_failure) ∧
    (∀ signed bits, read_unboxed signed bits wrtx mem off_ = .error .Assert_failure) ∧
    (∀ v, write_word wrtx mem off_ v = .error .Assert_failure) ∧
    read_word wrtx mem off_ = .error .Assert_failure ∧
    (∀ v, write_str wrtx mem off_ v = .error .Assert_failure) ∧
    read_str wrtx mem off_ = .error .Assert_failure ∧
    (∀ v, write_ip wrtx mem off_ v = .error .Assert_failure) ∧
    read_ip wrtx mem off_ = .error .Assert_failure ∧
    (∀ v, write_float wrtx mem off_ v = .error .Assert_failure) ∧
    read_float wrtx mem off_ = .error .Assert_failure ∧
    (∀ size_, zero_bytes wrtx mem off_ size_ = .error .Assert_failure) := by
  have hm := misaligned_ofInt off_ h
  have hw := fun src size => write_words_misaligned wrtx mem (to_size_t off_) src size hm
  have hr := fun size => read_words_misaligned wrtx mem (to_size_t off_) size hm
  refine ⟨?_, ?_, ?_, ?_, ?_, ?_, ?_, ?_, ?_, ?_, ?_, ?_, ?_⟩
  · intro bits v
    unfold write_boxed
    exact hw _ _
  · intro bits v
    unfold write_unboxed
    exact hw _ _
  · intro bits ops
    rw [read_boxed_eq, hr]
    rfl
  · intro signed bits
    unfold read_unboxed
    rw [hr]
  · intro v
    unfold write_word
    simp only []
    rw [if_pos hm]
  · unfold read_word
    rw [hr]
  · intro v
    unfold write_str
    simp only []
    rw [hw]
  · unfold read_str
    simp only []
    rw [hr]
  · intro v
    unfold write_ip
    simp only []
    by_cases ht : ¬ (v.tag % 2 ^ 32 = 0 ∨ v.tag % 2 ^ 32 = 1)
    · rw [if_pos ht]
    · rw [if_neg ht, hw]
  · unfold read_ip
    simp only []
    rw [hr]
  · intro v
    unfold write_float
    exact hw _ _
  · unfold read_float
    exact hr _
  · intro size_
    unfold zero_bytes
    simp only []
    rw [if_pos hm]

/-- Claim C11 at a concrete input: the offset 2. -/
theorem misaligned_offset_rejected_witness :
    (2 : Int) % 4 ≠ 0 ∧
    write_word ⟨⟨0⟩, 8⟩ (fun _ => 0) 2 7 = .error .Assert_failure ∧
    read_word ⟨⟨0⟩, 8⟩ (fun _ => 0) 2 = .error .Assert_failure :=
  ⟨by decide,
    (misaligned_offset_rejected ⟨⟨0⟩, 8⟩ (fun _ => 0) 2 (by decide)).2.2.2.2.1 7,
    (misaligned_offset_rejected ⟨⟨0⟩, 8⟩ (fun _ => 0) 2 (by decide)).2.2.2.2.2.1⟩

/-! ## The numeric parser -/

/-- Claim C12 fails as stated: `wrap_strtod` tests `*end != 0`, whatever the character.
On the text `1.5` followed by a space the host parses three characters and the call
fails, the space remaining; on the empty text nothing is parsed and the call
returns. -/
theorem wrap_strtod_rejects_trailing_space :
    (strtod_decimal [49, 46, 53, 32] = ([49, 46, 53], 3) ∧
      wrap_strtod strtod_decimal [49, 46, 53, 32] = .error .Failure) ∧
    (strtod_decimal [] = ([], 0) ∧ wrap_strtod strtod_decimal [] = .ok []) :=
  ⟨⟨by decide, rfl⟩, ⟨by decide, rfl⟩⟩

/-- Claim C12, amended. When the host `strtod` stops inside the C string: `wrap_strtod`
fails if and only if a character, of any kind, remains after the prefix parsed; when
none remains it returns the double of the host, also when nothing was parsed from an
empty string. -/
theorem wrap_strtod_fails_iff {F : Type} (strtod : List Byte → F × Nat)
    (str_ : List Byte) (hk : (strtod str_).2 ≤ strlen str_) :
    (wrap_strtod strtod str_ = .error .Failure ↔ (strtod str_).2 < strlen str_) ∧
      ((strtod str_).2 = strlen str_ → wrap_strtod strtod str_ = .ok (strtod str_).1) := by
  have h := getD_nul_ne_zero_iff str_ _ hk
  unfold wrap_strtod
  rcases hs : strtod str_ with ⟨d, e⟩
  rw [hs] at h
  simp only at h ⊢
  by_cases hc : ((str_ ++ [0]).getD e 0).val ≠ 0
  · rw [if_pos hc]
    have := h.mp hc
    exact ⟨⟨fun _ => this, fun _ => rfl⟩, fun he => absurd he (by omega)⟩
  · rw [if_neg hc]
    have hn : ¬ e < strlen str_ := fun hlt => hc (h.mpr hlt)
    refine ⟨⟨fun he => ?_, fun hlt => absurd hlt hn⟩, fun _ => rfl⟩
    cases he

/-- Claim C12, amended, at a concrete input: the text `1.5x`. -/
theorem wrap_strtod_fails_iff_witness :
    (strtod_decimal [49, 46, 53, 120]).2 ≤ strlen [49, 46, 53, 120] ∧
    ((wrap_strtod strtod_decimal [49, 46, 53, 120] = .error .Failure ↔
        (strtod_decimal [49, 46, 53, 120]).2 < strlen [49, 46, 53, 120]) ∧
      ((strtod_decimal [49, 46, 53, 120]).2 = strlen [49, 46, 53, 120] →
        wrap_strtod strtod_decimal [49, 46, 53, 120]
          = .ok (strtod_decimal [49, 46, 53, 120]).1)) :=
  ⟨by decide, wrap_strtod_fails_iff strtod_decimal [49, 46, 53, 120] (by decide)⟩

/-! ## First in, first out -/

/-- Claim C14. A typed write (a boxed or unboxed integer of any width, a double, a
raw word) that returns at a word-aligned offset `o` of the range of an OCaml integer
changes only the bytes `[o, o + W)` of the slot, `W` being the number of bytes it
copies: every byte of the data area outside that range is unchanged, and every read
(of words, of an integer of any width, of a raw word, of a double) at an offset of
that range whose byte range is disjoint from `[o, o + W)` gives after the write what
it gave before. -/
theorem typed_write_frame (w : typed_write) (wrtx : wrap_ringbuf_tx) (mem mem1 : Mem)
    (o : Nat) (ho : o < 2 ^ 62) (h : w.run wrtx mem (o : Int) = .ok mem1) :
    (∀ a, a < 4 * wrtx.tx.record_start + o ∨
        4 * wrtx.tx.record_start + o + w.width ≤ a → mem1 a = mem a) ∧
    (∀ (o2 n : Nat), o2 < 2 ^ 62 → o2 + n ≤ o ∨ o + w.width ≤ o2 →
      read_words wrtx mem1 o2 n = read_words wrtx mem o2 n) ∧
    (∀ (bits : Nat) (ops : custom_operations) (o2 : Nat), o2 < 2 ^ 62 →
      o2 + bits / 8 ≤ o ∨ o + w.width ≤ o2 →
      read_boxed bits ops wrtx mem1 (o2 : Int) = read_boxed bits ops wrtx mem (o2 : Int)) ∧
    (∀ (signed : Bool) (bits : Nat) (o2 : Nat), o2 < 2 ^ 62 →
      o2 + bits / 8 ≤ o ∨ o + w.width ≤ o2 →
      read_unboxed signed bits wrtx mem1 (o2 : Int)
        = read_unboxed signed bits wrtx mem (o2 : Int)) ∧
    (∀ (W : IntWidth) (o2 : Nat), o2 < 2 ^ 62 →
      o2 + W.bytes ≤ o ∨ o + w.width ≤ o2 →
      read_W W wrtx mem1 (o2 : Int) = read_W W wrtx mem (o2 : Int)) ∧
    (∀ o2 : Nat, o2 < 2 ^ 62 → o2 + 4 ≤ o ∨ o + w.width ≤ o2 →
      read_word wrtx mem1 (o2 : Int) = read_word wrtx mem (o2 : Int)) ∧
    (∀ o2 : Nat, o2 < 2 ^ 62 → o2 + 8 ≤ o ∨ o + w.width ≤ o2 →
      read_float wrtx mem1 (o2 : Int) = read_float wrtx mem (o2 : Int)) := by
  obtain ⟨ha, src, rfl⟩ := typed_write_run_inv h
  rw [to_size_t_small o (by omega)] at ha
  rw [to_size_t_small o (by omega)]
  have hr : ∀ (o2 n : Nat), o2 < 2 ^ 62 → o2 + n ≤ o ∨ o + w.width ≤ o2 →
      read_words wrtx (memcpy_to mem (where_to wrtx o) src w.width) o2 n
        = read_words wrtx mem o2 n :=
    fun o2 n _ hd => read_words_frame wrtx mem o o2 w.width n src ha hd
  have hs : ∀ o2 : Nat, o2 < 2 ^ 62 → to_size_t (o2 : Int) = o2 :=
    fun o2 h2 => to_size_t_small o2 (by omega)
  have hbx : ∀ (bits : Nat) (ops : custom_operations) (o2 : Nat), o2 < 2 ^ 62 →
      o2 + bits / 8 ≤ o ∨ o + w.width ≤ o2 →
      read_boxed bits ops wrtx (memcpy_to mem (where_to wrtx o) src w.width) (o2 : Int)
        = read_boxed bits ops wrtx mem (o2 : Int) := by
    intro bits ops o2 h2 hd
    rw [read_boxed_eq, read_boxed_eq, hs o2 h2, hr o2 _ h2 hd]
  have hub : ∀ (signed : Bool) (bits : Nat) (o2 : Nat), o2 < 2 ^ 62 →
      o2 + bits / 8 ≤ o ∨ o + w.width ≤ o2 →
      read_unboxed signed bits wrtx (memcpy_to mem (where_to wrtx o) src w.width) (o2 : Int)
        = read_unboxed signed bits wrtx mem (o2 : Int) := by
    intro signed bits o2 h2 hd
    rw [read_unboxed_eq, read_unboxed_eq, hs o2 h2, hr o2 _ h2 hd]
  refine ⟨fun a h => memcpy_to_outside _ _ _ _ _
    (by rw [where_to_aligned wrtx o ha]; exact h), hr, hbx, hub, ?_, ?_, ?_⟩
  · intro W o2 h2 hd
    cases W with
    | u8 => exact hub false 8 o2 h2 hd
    | u16 => exact hub false 16 o2 h2 hd
    | u32 =>
      show (read_boxed 32 .uint32_ops wrtx _ o2).map custom.toInt
        = (read_boxed 32 .uint32_ops wrtx _ o2).map custom.toInt
      rw [hbx 32 _ o2 h2 hd]
    | i32 =>
      show (read_boxed 32 .caml_int32_ops wrtx _ o2).map custom.toInt
        = (read_boxed 32 .caml_int32_ops wrtx _ o2).map custom.toInt
      rw [hbx 32 _ o2 h2 hd]
    | u64 =>
      show (read_boxed 64 .uint64_ops wrtx _ o2).map custom.toInt
        = (read_boxed 64 .uint64_ops wrtx _ o2).map custom.toInt
      rw [hbx 64 _ o2 h2 hd]
    | i64 =>
      show (read_boxed 64 .caml_int64_ops wrtx _ o2).map custom.toInt
        = (read_boxed 64 .caml_int64_ops wrtx _ o2).map custom.toInt
      rw [hbx 64 _ o2 h2 hd]
    | u128 =>
      show (read_boxed 128 .uint128_ops wrtx _ o2).map custom.toInt
        = (read_boxed 128 .uint128_ops wrtx _ o2).map custom.toInt
      rw [hbx 128 _ o2 h2 hd]
    | i128 =>
      show (read_boxed 128 .int128_ops wrtx _ o2).map custom.toInt
        = (read_boxed 128 .int128_ops wrtx _ o2).map custom.toInt
      rw [hbx 128 _ o2 h2 hd]
  · intro o2 h2 hd
    rw [read_word_eq, read_word_eq, hs o2 h2, hr o2 _ h2 hd]
  · intro o2 h2 hd
    have := hr o2 8 h2 hd
    rw [← hs o2 h2] at this
    exact this

/-- Claim C14 at a concrete input, from the scenario: the 64-bit write at offset 4
leaves the 32-bit value read at offset 0 as it was. -/
theorem typed_write_frame_witness :
    ((4 : Nat) < 2 ^ 62 ∧
      (typed_write.boxed 64 (box .uint64_ops 8 81985529216486895)).run ⟨⟨0⟩, 16⟩
          (memcpy_to (fun _ => 0) 0 (le_bytes 4 3735928559) 4) ((4 : Nat) : Int)
        = .ok (memcpy_to (memcpy_to (fun _ => 0) 0 (le_bytes 4 3735928559) 4) 4
            (le_bytes 8 81985529216486895) 8)) ∧
    read_W .u32 ⟨⟨0⟩, 16⟩
        (memcpy_to (memcpy_to (fun _ => 0) 0 (le_bytes 4 3735928559) 4) 4
          (le_bytes 8 81985529216486895) 8) ((0 : Nat) : Int)
      = read_W .u32 ⟨⟨0⟩, 16⟩
          (memcpy_to (fun _ => 0) 0 (le_bytes 4 3735928559) 4) ((0 : Nat) : Int) :=
  ⟨⟨by decide, rfl⟩,
    (typed_write_frame (.boxed 64 (box .uint64_ops 8 81985529216486895)) ⟨⟨0⟩, 16⟩
      (memcpy_to (fun _ => 0) 0 (le_bytes 4 3735928559) 4) _ 4 (by decide)
      rfl).2.2.2.2.1 .u32 0 (by decide) (Or.inl (by decide))⟩

/-! ## Bounds of the tagged IP accesses -/

/-- The bounds of the tagged IP accesses when `o + 4` is below `2 ^ 62`, so that the
offset of the address is unchanged by `Val_long`. -/
theorem ip_bounds_below (wrtx : wrap_ringbuf_tx) (mem : Mem) (o : Nat) (ha : o % 4 = 0)
    (hal : wrtx.alloced % 4 = 0) (ho : o + 4 < 2 ^ 62) :
    (∀ a, (∃ m, write_ip wrtx mem o (ip_v4 a) = .ok m) ↔ o + 5 ≤ wrtx.alloced) ∧
    (∀ a, (∃ m, write_ip wrtx mem o (ip_v6 a) = .ok m) ↔ o + 17 ≤ wrtx.alloced) ∧
    (le_val (memcpy_from mem (where_to wrtx o) 4) = 0 →
      ((∃ x, read_ip wrtx mem o = .ok x) ↔ o + 5 ≤ wrtx.alloced)) ∧
    (le_val (memcpy_from mem (where_to wrtx o) 4) = 1 →
      ((∃ x, read_ip wrtx mem o = .ok x) ↔ o + 17 ≤ wrtx.alloced)) := by
  have e0 := to_size_t_small o (by omega)
  have hdst : ∀ dst, read_words wrtx mem (to_size_t o) 4 = .ok dst →
      dst = memcpy_from mem (where_to wrtx o) 4 := by
    intro dst hd
    by_cases h1 : o + 4 ≤ wrtx.alloced
    · rw [e0, read_words_ok wrtx mem o 4 ha (by omega) (by omega)] at hd
      injection hd with hd
      exact hd.symm
    · rw [e0, read_words_err wrtx mem o 4 (by omega)] at hd
      cases hd
  refine ⟨fun a => ?_, fun a => ?_, fun ht => ?_, fun ht => ?_⟩
  · rw [ip_v4, write_ip_ok_iff wrtx mem o 4 0 _ ha ho (by omega) (write_ip_tag0 _ _ _ _)]
    omega
  · rw [ip_v6, write_ip_ok_iff wrtx mem o 16 1 _ ha ho (by omega) (write_ip_tag1 _ _ _ _)]
    omega
  · rw [read_ip_ok_iff wrtx mem o 4 ha ho (by omega) _
      (fun dst hd => read_ip_tag0 wrtx mem o dst hd (by rw [hdst dst hd]; exact ht))]
    omega
  · rw [read_ip_ok_iff wrtx mem o 16 ha ho (by omega) _
      (fun dst hd => read_ip_tag1 wrtx mem o dst hd (by rw [hdst dst hd]; exact ht))]
    omega

/-- When the tag word does not fit in the slot, `write_ip` fails on the bounds
assertion of the first write. -/
theorem write_ip_fails_of_tag_bound (wrtx : wrap_ringbuf_tx) (mem : Mem) (o tag n : Nat)
    (c : custom) (ho : o < 2 ^ 62) (hb : wrtx.alloced < o + 4)
    (hw : write_ip wrtx mem o ⟨tag, c⟩ =
      match write_words wrtx mem (to_size_t o) (le_bytes 4 tag) 4 with
      | .error e => .error e
      | .ok m => write_words wrtx m
          (to_size_t (Val_long (((to_size_t o + 4) % 2 ^ 64 : Nat) : Int))) c.data n) :
    ¬ ∃ m, write_ip wrtx mem o ⟨tag, c⟩ = .ok m := by
  have e : (4 + o) % 2 ^ 64 = 4 + o := Nat.mod_eq_of_lt (by omega)
  rw [hw, to_size_t_small o (by omega),
    write_words_err wrtx mem o _ 4 (by rw [e]; omega)]
  rintro ⟨m, hm⟩
  cases hm

/-- When the tag word does not fit in the slot, `read_ip` fails on the bounds
assertion of the first read. -/
theorem read_ip_fails_of_tag_bound (wrtx : wrap_ringbuf_tx) (mem : Mem) (o : Nat)
    (ho : o < 2 ^ 62) (hb : wrtx.alloced < o + 4) :
    ¬ ∃ x, read_ip wrtx mem o = .ok x := by
  have e : (4 + o) % 2 ^ 64 = 4 + o := Nat.mod_eq_of_lt (by omega)
  have hd := read_words_err wrtx mem o 4 (by rw [e]; omega)
  rintro ⟨x, hx⟩
  unfold read_ip at hx
  simp only [] at hx
  rw [to_size_t_small o (by omega), hd] at hx
  cases hx

/-- Claim C15. For every transaction within the invariant of the spec
(`alloced ≤ MAX_RINGBUF_MSG_SIZE`) whose `alloced` is a multiple of 4 and every
word-aligned offset `o` of the range of an OCaml integer: `write_ip` of a v4 address
passes its bounds checks, that is returns, if and only if `o + 5 ≤ alloced`, of a v6
address if and only if `o + 17 ≤ alloced`; `read_ip` returns if and only if
`o + 5 ≤ alloced` when the tag word at `o` is 0, and if and only if
`o + 17 ≤ alloced` when it is 1. -/
theorem ip_bounds (wrtx : wrap_ringbuf_tx) (mem : Mem) (o : Nat)
    (hinv : wrtx.alloced ≤ MAX_RINGBUF_MSG_SIZE) (hal : wrtx.alloced % 4 = 0)
    (ha : o % 4 = 0) (ho : o < 2 ^ 62) :
    (∀ a, (∃ m, write_ip wrtx mem o (ip_v4 a) = .ok m) ↔ o + 5 ≤ wrtx.alloced) ∧
    (∀ a, (∃ m, write_ip wrtx mem o (ip_v6 a) = .ok m) ↔ o + 17 ≤ wrtx.alloced) ∧
    (le_val (memcpy_from mem (where_to wrtx o) 4) = 0 →
      ((∃ x, read_ip wrtx mem o = .ok x) ↔ o + 5 ≤ wrtx.alloced)) ∧
    (le_val (memcpy_from mem (where_to wrtx o) 4) = 1 →
      ((∃ x, read_ip wrtx mem o = .ok x) ↔ o + 17 ≤ wrtx.alloced)) := by
  simp only [MAX_RINGBUF_MSG_SIZE] at hinv
  by_cases hs : o + 4 < 2 ^ 62
  · exact ip_bounds_below wrtx mem o ha hal hs
  · have hb : wrtx.alloced < o + 4 := by omega
    have hr := read_ip_fails_of_tag_bound wrtx mem o ho hb
    refine ⟨fun a => ⟨fun h => ?_, fun h => ?_⟩, fun a => ⟨fun h => ?_, fun h => ?_⟩,
      fun _ => ⟨fun h => ?_, fun h => ?_⟩, fun _ => ⟨fun h => ?_, fun h => ?_⟩⟩
    · exact absurd h (write_ip_fails_of_tag_bound wrtx mem o 0 4 _ ho hb
        (write_ip_tag0 _ _ _ _))
    · omega
    · exact absurd h (write_ip_fails_of_tag_bound wrtx mem o 1 16 _ ho hb
        (write_ip_tag1 _ _ _ _))
    · omega
    · exact absurd h hr
    · omega
    · exact absurd h hr
    · omega

/-- Claim C15 at a concrete input: a v4 address at offset 8 of a 16-byte slot. -/
theorem ip_bounds_witness :
    ((⟨⟨0⟩, 16⟩ : wrap_ringbuf_tx).alloced ≤ MAX_RINGBUF_MSG_SIZE ∧
      (⟨⟨0⟩, 16⟩ : wrap_ringbuf_tx).alloced % 4 = 0 ∧ 8 % 4 = 0 ∧ 8 < 2 ^ 62) ∧
    ((∃ m, write_ip ⟨⟨0⟩, 16⟩ (fun _ => 0) ((8 : Nat) : Int) (ip_v4 7) = .ok m) ↔
      8 + 5 ≤ (⟨⟨0⟩, 16⟩ : wrap_ringbuf_tx).alloced) :=
  ⟨⟨by decide, by decide, by decide, by decide⟩,
    (ip_bounds ⟨⟨0⟩, 16⟩ (fun _ => 0) 8 (by decide) (by decide) (by decide)
      (by decide)).1 7⟩

/-! ## The size test of enqueue -/

/-- Claim C16, at the inputs where the code departs from it. With a payload of 4 bytes
and size 8, greater than the length, `wrap_ringbuf_enqueue` raises nothing and asks
the core to copy 2 words; with a payload of 8 bytes and size 4 it raises an
invalid-argument error. The test `size < length` is the reverse of its message. -/
theorem enqueue_size_test_inverted :
    ((8 : Int) > (([1, 2, 3, 4] : List Byte).length : Int) ∧
      wrap_ringbuf_enqueue enqueue_counting_words 0 [1, 2, 3, 4] 8 () () = (.ok (), 2)) ∧
    ((4 : Int) < (([1, 2, 3, 4, 5, 6, 7, 8] : List Byte).length : Int) ∧
      wrap_ringbuf_enqueue enqueue_counting_words 0 [1, 2, 3, 4, 5, 6, 7, 8] 4 () ()
        = (.error .Invalid_argument, 0)) :=
  ⟨⟨by decide, rfl⟩, ⟨by decide, rfl⟩⟩

/-! ## Zeroing -/

/-- The effect of `zero_bytes` for a size below `2 ^ 31`, which the conversion to a C
`int` leaves unchanged, stated for the bits whose index is below `2 ^ 32`. -/
theorem zero_bytes_below (wrtx : wrap_ringbuf_tx) (mem : Mem) (o n : Nat) (ha : o % 4 = 0)
    (hb : o + n ≤ wrtx.alloced) (hn : n < 2 ^ 31) (ho : o < 2 ^ 62) :
    ∃ mem1, zero_bytes wrtx mem o n = .ok mem1 ∧
      (∀ a, where_to wrtx o ≤ a → a < where_to wrtx o + n → mem1 a = 0) ∧
      (∀ a, a < where_to wrtx o ∨ where_to wrtx o + n ≤ a → mem1 a = mem a) ∧
      (∀ (W : IntWidth) (o2 : Nat), o2 % 4 = 0 → o ≤ o2 → o2 + W.bytes ≤ o + n →
        read_W W wrtx mem1 o2 = .ok 0) ∧
      (∀ (bits : Nat) (ops : custom_operations) (o2 : Nat), bits ≤ 128 → o2 % 4 = 0 →
        o ≤ o2 → o2 + bits / 8 ≤ o + n →
        ∃ c, read_boxed bits ops wrtx mem1 o2 = .ok c ∧ c.toInt = 0) ∧
      (∀ (signed : Bool) (bits : Nat) (o2 : Nat), bits ≤ 128 → o2 % 4 = 0 → o ≤ o2 →
        o2 + bits / 8 ≤ o + n → read_unboxed signed bits wrtx mem1 o2 = .ok 0) ∧
      (∀ b : Nat, b < 2 ^ 32 → 8 * o ≤ b → b < 8 * (o + n) →
        get_bit wrtx mem1 b = .ok false) := by
  have hzero : ∀ a, where_to wrtx o ≤ a → a < where_to wrtx o + n →
      memset_zero mem (where_to wrtx o) n a = 0 := by
    intro a h1 h2
    unfold memset_zero
    rw [if_pos ⟨h1, h2⟩]
  have hrw : ∀ (o2 k : Nat), k ≤ 16 → o2 % 4 = 0 → o ≤ o2 → o2 + k ≤ o + n →
      read_words wrtx (memset_zero mem (where_to wrtx o) n) (to_size_t (o2 : Int)) k
        = .ok (List.replicate k 0) := by
    intro o2 k hk h2 hle hin
    rw [to_size_t_small o2 (by omega),
      read_words_ok wrtx _ o2 k h2 (by omega) (by omega)]
    congr 1
    apply memcpy_from_zero
    intro i hi
    apply hzero
    · rw [where_to_aligned wrtx o ha, where_to_aligned wrtx o2 h2]
      omega
    · rw [where_to_aligned wrtx o ha, where_to_aligned wrtx o2 h2]
      omega
  have hbox : ∀ (bits : Nat) (ops : custom_operations) (o2 : Nat), bits ≤ 128 →
      o2 % 4 = 0 → o ≤ o2 → o2 + bits / 8 ≤ o + n →
      read_boxed bits ops wrtx (memset_zero mem (where_to wrtx o) n) o2
        = .ok ⟨ops, List.replicate (bits / 8) 0⟩ := by
    intro bits ops o2 hbits h2 hle hin
    rw [read_boxed_eq, hrw o2 (bits / 8) (by omega) h2 hle hin]
    rfl
  have hunb : ∀ (signed : Bool) (bits : Nat) (o2 : Nat), bits ≤ 128 → o2 % 4 = 0 →
      o ≤ o2 → o2 + bits / 8 ≤ o + n →
      read_unboxed signed bits wrtx (memset_zero mem (where_to wrtx o) n) o2 = .ok 0 := by
    intro signed bits o2 hbits h2 hle hin
    rw [read_unboxed_eq, hrw o2 (bits / 8) (by omega) h2 hle hin]
    cases signed
    · show Except.ok (Val_long ((le_val (List.replicate (bits / 8) (0 : Byte)) : Nat) : Int))
        = Except.ok 0
      rw [le_val_replicate_zero]
      rfl
    · show Except.ok (Val_long (le_sval (List.replicate (bits / 8) (0 : Byte))))
        = Except.ok 0
      rw [le_sval_replicate_zero]
      rfl
  refine ⟨_, zero_bytes_ok wrtx mem o n ha hn ho, hzero,
    fun a h => ?_, ?_, ?_, hunb, ?_⟩
  · unfold memset_zero
    rw [if_neg (by omega)]
  · intro W o2 h2 hle hin
    cases W with
    | u8 => exact hunb false 8 o2 (by omega) h2 hle hin
    | u16 => exact hunb false 16 o2 (by omega) h2 hle hin
    | u32 =>
      show (read_boxed 32 .uint32_ops wrtx _ o2).map custom.toInt = .ok 0
      rw [hbox 32 _ o2 (by omega) h2 hle hin]
      exact congrArg Except.ok (toInt_replicate_zero _ _)
    | i32 =>
      show (read_boxed 32 .caml_int32_ops wrtx _ o2).map custom.toInt = .ok 0
      rw [hbox 32 _ o2 (by omega) h2 hle hin]
      exact congrArg Except.ok (toInt_replicate_zero _ _)
    | u64 =>
      show (read_boxed 64 .uint64_ops wrtx _ o2).map custom.toInt = .ok 0
      rw [hbox 64 _ o2 (by omega) h2 hle hin]
      exact congrArg Except.ok (toInt_replicate_zero _ _)
    | i64 =>
      show (read_boxed 64 .caml_int64_ops wrtx _ o2).map custom.toInt = .ok 0
      rw [hbox 64 _ o2 (by omega) h2 hle hin]
      exact congrArg Except.ok (toInt_replicate_zero _ _)
    | u128 =>
      show (read_boxed 128 .uint128_ops wrtx _ o2).map custom.toInt = .ok 0
      rw [hbox 128 _ o2 (by omega) h2 hle hin]
      exact congrArg Except.ok (toInt_replicate_zero _ _)
    | i128 =>
      show (read_boxed 128 .int128_ops wrtx _ o2).map custom.toInt = .ok 0
      rw [hbox 128 _ o2 (by omega) h2 hle hin]
      exact congrArg Except.ok (toInt_replicate_zero _ _)
  · intro bits ops o2 hbits h2 hle hin
    exact ⟨_, hbox bits ops o2 hbits h2 hle hin, toInt_replicate_zero _ _⟩
  · intro b hb32 h1 h2
    rw [get_bit_ok wrtx _ b hb32 (by omega)]
    have hz := hzero (where_to wrtx 0 + b / 8)
      (by rw [where_to_aligned wrtx o ha, where_to_aligned wrtx 0 (by decide)]; omega)
      (by rw [where_to_aligned wrtx o ha, where_to_aligned wrtx 0 (by decide)]; omega)
    rw [hz]
    simp

/-- Claim C17. For every transaction within the invariant of the spec
(`alloced ≤ MAX_RINGBUF_MSG_SIZE`) and every in-bounds request (`o` word-aligned,
`o + n ≤ alloced`): `zero_bytes` returns, sets every byte of `[o, o + n)` of the
slot to zero and leaves every other byte unchanged; afterwards every typed integer
read whose range lies inside `[o, o + n)` returns 0, and `get_bit` is false for
every bit of those bytes. -/
theorem zero_bytes_spec (wrtx : wrap_ringbuf_tx) (mem : Mem) (o n : Nat)
    (hinv : wrtx.alloced ≤ MAX_RINGBUF_MSG_SIZE) (ha : o % 4 = 0)
    (hb : o + n ≤ wrtx.alloced) :
    ∃ mem1, zero_bytes wrtx mem o n = .ok mem1 ∧
      (∀ a, 4 * wrtx.tx.record_start + o ≤ a → a < 4 * wrtx.tx.record_start + o + n →
        mem1 a = 0) ∧
      (∀ a, a < 4 * wrtx.tx.record_start + o ∨ 4 * wrtx.tx.record_start + o + n ≤ a →
        mem1 a = mem a) ∧
      (∀ (W : IntWidth) (o2 : Nat), o2 % 4 = 0 → o ≤ o2 → o2 + W.bytes ≤ o + n →
        read_W W wrtx mem1 o2 = .ok 0) ∧
      (∀ (bits : Nat) (ops : custom_operations) (o2 : Nat), bits ≤ 128 → o2 % 4 = 0 →
        o ≤ o2 → o2 + bits / 8 ≤ o + n →
        ∃ c, read_boxed bits ops wrtx mem1 o2 = .ok c ∧ c.toInt = 0) ∧
      (∀ (signed : Bool) (bits : Nat) (o2 : Nat), bits ≤ 128 → o2 % 4 = 0 → o ≤ o2 →
        o2 + bits / 8 ≤ o + n → read_unboxed signed bits wrtx mem1 o2 = .ok 0) ∧
      (∀ b : Nat, 8 * o ≤ b → b < 8 * (o + n) → get_bit wrtx mem1 b = .ok false) := by
  simp only [MAX_RINGBUF_MSG_SIZE] at hinv
  obtain ⟨mem1, h1, h2, h3, h4, h5, h6, h7⟩ :=
    zero_bytes_below wrtx mem o n ha hb (by omega) (by omega)
  rw [where_to_aligned wrtx o ha] at h2 h3
  exact ⟨mem1, h1, h2, h3, h4, h5, h6, fun b hb1 hb2 => h7 b (by omega) hb1 hb2⟩

/-- Claim C17 at a concrete input: 8 bytes zeroed at offset 4 of a 16-byte slot
filled with 255. -/
theorem zero_bytes_spec_witness :
    ((⟨⟨0⟩, 16⟩ : wrap_ringbuf_tx).alloced ≤ MAX_RINGBUF_MSG_SIZE ∧ 4 % 4 = 0 ∧
      4 + 8 ≤ (⟨⟨0⟩, 16⟩ : wrap_ringbuf_tx).alloced) ∧
    ∃ mem1, zero_bytes ⟨⟨0⟩, 16⟩ (fun _ => 255) ((4 : Nat) : Int) ((8 : Nat) : Int)
        = .ok mem1 ∧
      memcpy_from mem1 0 16 = [255, 255, 255, 255, 0, 0, 0, 0, 0, 0, 0, 0, 255, 255, 255, 255] ∧
      read_W .u64 ⟨⟨0⟩, 16⟩ mem1 ((4 : Nat) : Int) = .ok 0 := by
  obtain ⟨mem1, h1, h2, h3, h4, -⟩ := zero_bytes_spec ⟨⟨0⟩, 16⟩ (fun _ => 255) 4 8
    (by decide) (by decide) (by decide)
  refine ⟨⟨by decide, by decide, by decide⟩, mem1, h1, ?_, ?_⟩
  · have e : zero_bytes ⟨⟨0⟩, 16⟩ (fun _ => 255) ((4 : Nat) : Int) ((8 : Nat) : Int)
        = .ok (memset_zero (fun _ => 255) 4 8) := rfl
    rw [e] at h1
    injection h1 with h1
    rw [← h1]
    decide
  · exact h4 .u64 4 (by decide) (by decide) (by decide)

/-! ## Negative offsets -/

/-- Claim C18, at the input where the code departs from it. The offset `-4` becomes
`2 ^ 64 - 4` as a `size_t`, and with size 4 the sum `size + offs` wraps to 0: the
checks of `write_words` and `read_words` pass on a transaction with nothing
allocated, although the offset is negative. -/
theorem negative_offset_passes_checks :
    ¬ ((0 : Int) ≤ -4) ∧ to_size_t (-4) = 18446744073709551612 ∧
    (∃ mem1, write_words ⟨⟨1⟩, 0⟩ (fun _ => 0) (to_size_t (-4)) [7, 0, 0, 0] 4 = .ok mem1) ∧
    (∃ dst, read_words ⟨⟨1⟩, 0⟩ (fun _ => 0) (to_size_t (-4)) 4 = .ok dst) ∧
    (∃ mem1, write_boxed_32 ⟨⟨1⟩, 0⟩ (fun _ => 0) (-4) (box .uint32_ops 4 7) = .ok mem1) :=
  ⟨by decide, by decide, ⟨_, rfl⟩, ⟨_, rfl⟩, ⟨_, rfl⟩⟩

/-! ## Raw words -/

/-- Claim C19, at the input where the code departs from it. `write_word` asserts only
`v <= UINT32_MAX`: the value `-1` is accepted and stored as `0xFFFFFFFF`, and
`read_word` returns 4294967295. -/
theorem write_word_accepts_negative :
    ¬ ((0 : Int) ≤ -1) ∧
    ∃ mem1, write_word ⟨⟨0⟩, 4⟩ (fun _ => 0) 0 (-1) = .ok mem1 ∧
      memcpy_from mem1 0 4 = [255, 255, 255, 255] ∧
      read_word ⟨⟨0⟩, 4⟩ mem1 0 = .ok 4294967295 :=
  ⟨by decide, _, rfl, by decide, rfl⟩

end Ringbuf
